import Mathlib

/-!
Verification of `src/jasmine-utils-lite.js`.

The JavaScript source is shallowly embedded: JS values become the inductive
type `Value`, an object is a list of own property entries plus an optional
internal prototype ([[Prototype]]), and every fallible operation returns
`Except Unit`.  Mutation is modelled by threading the updated value.  The
property walk `forEachWritableProperties` is embedded with an explicit fuel
parameter for the `while (currentProto)` loop; all other recursions are
structural.
-/

namespace JasmineUtilsLite

/-- A JS value.  An object carries its own property entries, each
`(name, value, writable, enumerable, readThrows)`, in definition order,
plus an optional internal prototype; `none` stands for `Object.prototype`
(the root ancestor, which has no enumerable properties).  A spy handle
(external collaborator, see spec section 6) carries the id of the plain
function it wraps, its ordered list of recorded calls (each an ordered
argument list), and its configured behavior. -/
inductive Value : Type where
  | vUndefined : Value
  | vNull : Value
  | vBool (b : Bool) : Value
  | vNum (n : Int) : Value
  | vStr (s : String) : Value
  | vFunc (id : Nat) : Value
  | vSpy (origId : Nat) (calls : List (List Value)) (behavior : Option (String × List Value)) : Value
  | vArr (elems : List Value) : Value
  | vObj (own : List (String × Value × Bool × Bool × Bool)) (iproto : Option Value) : Value

/-- One own-property entry: `(name, value, writable, enumerable, readThrows)`. -/
abbrev Entry := String × Value × Bool × Bool × Bool

def entryName (e : Entry) : String := e.1

def entryVal (e : Entry) : Value := e.2.1

def entryWritable (e : Entry) : Bool := e.2.2.1

def entryEnum (e : Entry) : Bool := e.2.2.2.1

def entryThrows (e : Entry) : Bool := e.2.2.2.2

namespace Value

/-- JS truthiness. -/
def truthy : Value → Bool
  | vUndefined => false
  | vNull => false
  | vBool b => b
  | vNum n => n != 0
  | vStr s => s != ""
  | _ => true

/-- `typeof x === 'function'`: plain functions and jasmine spies are both
callable. -/
def typeofFunction : Value → Bool
  | vFunc _ => true
  | vSpy _ _ _ => true
  | _ => false

/-- Modelled from the spec: the external spy framework's predicate
`jasmine.isSpy` ("a predicate to test: is this value a spy handle"). -/
def isSpy : Value → Bool
  | vSpy _ _ _ => true
  | _ => false

/-- JS ToString coercion used for property keys.  Exact for strings (the
only keys the walk and the claims produce); approximate for the other
shapes, which arise only in degenerate calls. -/
def jsToString : Value → String
  | vStr s => s
  | vUndefined => "undefined"
  | vNull => "null"
  | vBool b => if b then "true" else "false"
  | vNum n => toString n
  | vFunc _ => "function"
  | vSpy _ _ _ => "function"
  | vArr _ => ""
  | vObj _ _ => "[object Object]"

end Value

open Value

/-- JS strict equality `===`, the comparison `Array.prototype.indexOf`
uses.  Primitives compare by value; functions and spies by identity (their
id); two distinct object or array expressions are distinct references, so
they compare unequal (the tree model does not track sharing). -/
def jsStrictEq : Value → Value → Bool
  | .vUndefined, .vUndefined => true
  | .vNull, .vNull => true
  | .vBool a, .vBool b => a == b
  | .vNum a, .vNum b => a == b
  | .vStr a, .vStr b => a == b
  | .vFunc i, .vFunc j => i == j
  | .vSpy i _ _, .vSpy j _ _ => i == j
  | _, _ => false

/-- First own entry with the given name (`Object.getOwnPropertyDescriptor`
on data properties). -/
def getOwnEntry : List Entry → String → Option Entry
  | [], _ => none
  | e :: rest, n => if e.1 = n then some e else getOwnEntry rest n

/-- Own entry lookup on a value; primitives and functions are modelled as
having no own properties. -/
def objGetOwn : Value → String → Option Entry
  | .vObj own _, n => getOwnEntry own n
  | _, _ => none

/-- `Object.getOwnPropertyNames`, in definition order. -/
def ownNamesOf : Value → List String
  | .vObj own _ => own.map (fun e => e.1)
  | _ => []

/-- `Object.getPrototypeOf` as an option; `none` is `Object.prototype`. -/
def iprotoOf : Value → Option Value
  | .vObj _ ip => ip
  | _ => none

/-- Property read (`obj[name]`): first own entry wins, otherwise the
internal prototype chain; a `readThrows` entry throws.  Reading a missing
property yields `undefined`. -/
def readProp : Value → String → Except Unit Value
  | .vObj own (some p), n =>
    match getOwnEntry own n with
    | some e => if entryThrows e then .error () else .ok (entryVal e)
    | none => readProp p n
  | .vObj own none, n =>
    match getOwnEntry own n with
    | some e => if entryThrows e then .error () else .ok (entryVal e)
    | none => .ok .vUndefined
  | _, _ => .ok .vUndefined

/-- Does reading `obj[n]` throw?  (The `try { currentProto[name] } catch`
test of the source's filter.) -/
def readThrowsOn (v : Value) (n : String) : Bool :=
  match readProp v n with
  | .error _ => true
  | .ok _ => false

/-- Assignment `obj[n] = v`: replaces the value of the first own entry
named `n` keeping its attributes, or appends a fresh writable enumerable
entry. -/
def setOwnEntryValue : List Entry → String → Value → List Entry
  | [], n, v => [(n, v, true, true, false)]
  | e :: rest, n, v =>
    if e.1 = n then (e.1, v, e.2.2.1, e.2.2.2.1, e.2.2.2.2) :: rest
    else e :: setOwnEntryValue rest n v

def setOwnValue (o : Value) (n : String) (v : Value) : Value :=
  match o with
  | .vObj own ip => .vObj (setOwnEntryValue own n v) ip
  | other => other

/-- Apply `f` to the value of the first entry named `n`, if any. -/
def mapEntryValue : List Entry → String → (Value → Value) → List Entry
  | [], _, _ => []
  | e :: rest, n, f =>
    if e.1 = n then (e.1, f e.2.1, e.2.2.1, e.2.2.2.1, e.2.2.2.2) :: rest
    else e :: mapEntryValue rest n f

/-- In-place mutation of the property holding `n`, wherever it first
occurs along the internal prototype chain (a heap mutation of the found
value, rendered structurally on the tree model). -/
def updateChainValue : Value → String → (Value → Value) → Value
  | .vObj own (some p), n, f =>
    if (getOwnEntry own n).isSome then .vObj (mapEntryValue own n f) (some p)
    else .vObj own (some (updateChainValue p n f))
  | .vObj own none, n, f => .vObj (mapEntryValue own n f) none
  | o, _, _ => o

/-- The own property names of `Object.prototype`.  `foundProps = {}` and
`methodsToSkip = {}` are plain JS objects, so looking up one of these names
on them yields an inherited, truthy member rather than `undefined`. -/
def objectProtoKeys : List String :=
  ["constructor", "hasOwnProperty", "isPrototypeOf", "propertyIsEnumerable",
   "toLocaleString", "toString", "valueOf",
   "__defineGetter__", "__defineSetter__", "__lookupGetter__", "__lookupSetter__",
   "__proto__"]

/-- Truthiness of `foundProps[n]` for a map whose own keys are `found`
(every stored value is `true`): own key, or inherited `Object.prototype`
member (all truthy). -/
def foundLookup (found : List String) (n : String) : Bool :=
  decide (n ∈ found) || decide (n ∈ objectProtoKeys)

/-- Truthiness-and-definedness of `methodsToSkip[m]` for a map whose own
keys are `skip` (values all `true`): `some b` when defined, with `b` the
truthiness of the stored or inherited value. -/
def mtsLookup (skip : List String) (m : String) : Option Bool :=
  if m ∈ skip then some true
  else if m ∈ objectProtoKeys then some true
  else none

/-- `spyAllExcept`'s skip test:
`typeof methodsToSkip[method] !== 'undefined' && methodsToSkip[method]`. -/
def spySkip (skip : List String) (m : String) : Bool :=
  (mtsLookup skip m).getD false

/-- `resetAllExcept`'s skip test:
`typeof methodsToSkip[method] !== 'undefined' && !methodsToSkip[method]`. -/
def resetSkip (skip : List String) (m : String) : Bool :=
  match mtsLookup skip m with
  | some b => !b
  | none => false

/-- `getMethodsToSkip(excepts)`: an array contributes each element as a
key (mapped to `true`); any other value becomes the single key
`String(excepts)`. -/
def getMethodsToSkip (excepts : Value) : List String :=
  match excepts with
  | .vArr l => l.map jsToString
  | v => [jsToString v]

/-- `Array.isArray(v) ? v : [v]`. -/
def normalizeSeq (v : Value) : List Value :=
  match v with
  | .vArr l => l
  | x => [x]

/-- Modelled from the spec: the external spy framework's installer turns a
plain function member into a fresh spy handle wrapping it (no recorded
calls, no configured behavior). -/
def mkSpy (orig : Value) : Value :=
  .vSpy (match orig with | .vFunc k => k | _ => 0) [] none

/-- The behavior-configuration methods a spy handle exposes (spec section 6:
return a fixed value, delegate to a fake, delegate to the original, plus
`andThrow`). -/
def spyConfigNames : List String := ["andReturn", "andCallFake", "andCallThrough", "andThrow"]

/-- `spy[behavior.name].apply(spy, behavior.arguments)`: reads `name` and
`arguments` off the behavior value, dispatches the named configuration call
on the spy handle; an unknown name (so `spy[name]` is `undefined`) or a
non-array-like `arguments` throws. -/
def applyBehavior (s : Value) (behavior : Value) : Except Unit Value :=
  match readProp behavior "name", readProp behavior "arguments" with
  | .ok nameV, .ok argsV =>
    let nm := jsToString nameV
    if nm ∈ spyConfigNames then
      match s, argsV with
      | .vSpy k calls _, .vArr l => .ok (.vSpy k calls (some (nm, l)))
      | .vSpy k calls _, .vUndefined => .ok (.vSpy k calls (some (nm, [])))
      | .vSpy k calls _, .vNull => .ok (.vSpy k calls (some (nm, [])))
      | _, _ => .error ()
    else .error ()
  | _, _ => .error ()

/-- Modelled from the spec: `spyOn(obj, method)` replaces `obj[method]`
with a fresh spy wrapping the original member and returns the spy handle.
Returns `(spy, updated obj)`. -/
def spyOn (obj : Value) (method : String) : Except Unit (Value × Value) :=
  match readProp obj method with
  | .error _ => .error ()
  | .ok orig => .ok (mkSpy orig, setOwnValue obj method (mkSpy orig))

/-- `spyIf(obj, method, behavior)` (source lines 16-29): spies the member
iff it is a plain non-spy function, applying the optional behavior to the
new spy; otherwise returns the member unchanged.  Result is
`(returned value, updated obj)`; the in-place mutation of the spy by the
behavior call is written back into the object. -/
def spyIf (obj : Value) (method : String) (behavior : Value) : Except Unit (Value × Value) :=
  match readProp obj method with
  | .error _ => .error ()
  | .ok methodToSpy =>
    if methodToSpy.typeofFunction && !methodToSpy.isSpy then
      match spyOn obj method with
      | .error _ => .error ()
      | .ok (s, obj1) =>
        if behavior.truthy then
          match applyBehavior s behavior with
          | .error _ => .error ()
          | .ok s1 => .ok (s1, setOwnValue obj1 method s1)
        else .ok (s, obj1)
    else .ok (methodToSpy, obj)

/-- Modelled from the spec: `spy.reset()` clears the spy's recorded calls
and configured behavior; any other value is left unchanged. -/
def resetSpyF : Value → Value
  | .vSpy k _ _ => .vSpy k [] none
  | v => v

/-- The loop of `resetEach` (source lines 133-137). -/
def resetEachLoop : Value → List Value → Except Unit Value
  | o, [] => .ok o
  | o, mv :: rest =>
    match readProp o (jsToString mv) with
    | .error _ => .error ()
    | .ok s =>
      if s.isSpy then resetEachLoop (updateChainValue o (jsToString mv) resetSpyF) rest
      else resetEachLoop o rest

/-- `resetEach(obj, methods)` (source lines 130-140). -/
def resetEach (obj methods : Value) : Except Unit Value :=
  resetEachLoop obj (normalizeSeq methods)

/-- The loop of `spyEach` (source lines 68-73); `i` is the loop index used
for the positional behavior lookup. -/
def spyEachLoop (behaviors : List Value) (isSingle : Bool) :
    Value → List Value → Nat → Except Unit Value
  | o, [], _ => .ok o
  | o, mv :: rest, i =>
    let b := if isSingle then behaviors.getD 0 .vUndefined else behaviors.getD i .vUndefined
    match spyIf o (jsToString mv) b with
    | .error _ => .error ()
    | .ok (_, o1) => spyEachLoop behaviors isSingle o1 rest (i + 1)

/-- `spyEach(obj, methods, behaviors)` (source lines 63-76): normalizes
both sequences; a single behavior applies to every method, otherwise
behaviors pair positionally (an out-of-range index reads `undefined`). -/
def spyEach (obj methods behaviors : Value) : Except Unit Value :=
  spyEachLoop (normalizeSeq behaviors) ((normalizeSeq behaviors).length == 1) obj
    (normalizeSeq methods) 0

/-- The scan of `getCallWithArg` (source lines 234-241): first call whose
argument list contains `arg` (`args.indexOf(arg) != -1`, the host's
default strict equality), else the undefined sentinel. -/
def getCallLoop : List (List Value) → Value → Option (List Value)
  | [], _ => none
  | c :: rest, arg => if c.any (fun x => jsStrictEq x arg) then some c else getCallLoop rest arg

/-- `getCallWithArg(obj, method, arg)` (source lines 227-244): reads
`obj[method].calls` and scans it; each call record is modelled by its
ordered argument list.  Accessing `.calls.length` of a non-spy member
throws. -/
def getCallWithArg (obj : Value) (method : String) (arg : Value) :
    Except Unit (Option (List Value)) :=
  match readProp obj method with
  | .error _ => .error ()
  | .ok (.vSpy _ calls _) => .ok (getCallLoop calls arg)
  | .ok _ => .error ()

/-- Enumerable own names, in order. -/
def enumOwnNames (own : List Entry) : List String :=
  (own.filter (fun e => entryEnum e)).map (fun e => e.1)

/-- The names `for (var i in currentProto)` enumerates: enumerable own
names first, then enumerable names of each internal-prototype layer not
shadowed by any own name of a more derived layer. -/
def forInAux : Value → List String → List String
  | .vObj own (some p), blocked =>
    (enumOwnNames own).filter (fun n => decide (n ∉ blocked))
      ++ forInAux p (blocked ++ own.map (fun e => e.1))
  | .vObj own none, blocked =>
    (enumOwnNames own).filter (fun n => decide (n ∉ blocked))
  | _, _ => []

def forInNames (v : Value) : List String := forInAux v []

/-- The descriptor lookup of source line 202:
`Object.getOwnPropertyDescriptor(currentProto, propName) ||
 Object.getOwnPropertyDescriptor(Object.getPrototypeOf(currentProto), propName)`. -/
def descrFor (cur : Value) (n : String) : Option Entry :=
  match objGetOwn cur n with
  | some e => some e
  | none =>
    match iprotoOf cur with
    | some p => objGetOwn p n
    | none => none

/-- The fold-in of source lines 189-193: push each ancestor own name that
is not `'constructor'` and not already collected. -/
def foldInNames (props : List String) (anc : List String) : List String :=
  anc.foldl (fun acc q => if q ≠ "constructor" ∧ q ∉ acc then acc ++ [q] else acc) props

/-- A visitor: `iterator(currentProto, name)`, returning the level object
after any in-place mutation; a thrown error propagates. -/
def JSVisitor := Value → String → Except Unit Value

/-- Result of one loop over names at a level: the level object after the
visits, the updated visited-name set, the visitor invocations in order,
and whether an exception escaped. -/
structure LoopRes where
  cur : Value
  found : List String
  log : List (Value × String)
  err : Bool

/-- The `for (var i in currentProto)` loop (source lines 165-171): for
each unseen name, read the property, mark it visited, and invoke the
visitor. -/
def forInLoop (visit : JSVisitor) : Value → List String → List String → LoopRes
  | cur, found, [] => ⟨cur, found, [], false⟩
  | cur, found, n :: rest =>
    if foundLookup found n then forInLoop visit cur found rest
    else
      match readProp cur n with
      | .error _ => ⟨cur, found, [], true⟩
      | .ok _ =>
        match visit cur n with
        | .error _ => ⟨cur, n :: found, [(cur, n)], true⟩
        | .ok cur1 =>
          let r := forInLoop visit cur1 (n :: found) rest
          ⟨r.cur, r.found, (cur, n) :: r.log, r.err⟩

/-- The `props.forEach` loop (source lines 197-209): read the property
(unguarded: a throwing read escapes), then for an unseen non-`'prototype'`
name whose descriptor reports writable, mark it visited and invoke the
visitor.  A missing descriptor makes `descriptor.writable` throw. -/
def propsLoop (visit : JSVisitor) : Value → List String → List String → LoopRes
  | cur, found, [] => ⟨cur, found, [], false⟩
  | cur, found, n :: rest =>
    match readProp cur n with
    | .error _ => ⟨cur, found, [], true⟩
    | .ok _ =>
      if n ≠ "prototype" ∧ !foundLookup found n then
        match descrFor cur n with
        | none => ⟨cur, found, [], true⟩
        | some e =>
          if entryWritable e then
            match visit cur n with
            | .error _ => ⟨cur, n :: found, [(cur, n)], true⟩
            | .ok cur1 =>
              let r := propsLoop visit cur1 (n :: found) rest
              ⟨r.cur, r.found, (cur, n) :: r.log, r.err⟩
          else propsLoop visit cur found rest
      else propsLoop visit cur found rest

/-- Outcome of a walk: normal termination (with the final, possibly
mutated, level-chain root), a propagated exception, or fuel exhaustion
(the JS loop would not have terminated yet). -/
inductive WStatus where
  | done (final : Value) : WStatus
  | errored : WStatus
  | fuelOut : WStatus

structure WalkRes where
  log : List (Value × String)
  found : List String
  status : WStatus

/-- Write the walked-and-mutated next level back into the current level's
own `prototype` slot (the heap aliasing of `currentProto.prototype`,
rendered structurally; an inherited `prototype` slot is left in place). -/
def writeBackProto (cur fin : Value) : Value :=
  match cur with
  | .vObj own ip =>
    if (getOwnEntry own "prototype").isSome then .vObj (setOwnEntryValue own "prototype" fin) ip
    else .vObj own ip
  | o => o

/-- One iteration of the `while (currentProto)` loop, up to but excluding
the level advance (source lines 164-209): the `for..in` phase; then
`props :=` the own names whose read throws (the filter at lines 177-184
returns `true` exactly in the `catch` branch); then, when
`currentProto.prototype` is falsy (line 186, a read that may throw) and
the internal prototype is not `Object.prototype`, fold in the ancestor's
own names except `'constructor'`; then the `props.forEach` phase. -/
def walkLevel (visit : JSVisitor) (cur : Value) (found : List String) : LoopRes :=
  let r1 := forInLoop visit cur found (forInNames cur)
  if r1.err then r1
  else
    let cur1 := r1.cur
    let propsBase := (ownNamesOf cur1).filter (fun n => readThrowsOn cur1 n)
    match readProp cur1 "prototype" with
    | .error _ => ⟨cur1, r1.found, r1.log, true⟩
    | .ok protoV =>
      let props :=
        if protoV.truthy then propsBase
        else
          match iprotoOf cur1 with
          | some p => foldInNames propsBase (ownNamesOf p)
          | none => propsBase
      let r2 := propsLoop visit cur1 r1.found props
      ⟨r2.cur, r2.found, r1.log ++ r2.log, r2.err⟩

/-- `forEachWritableProperties(obj, iterator)` (source lines 159-218):
process each level via `walkLevel`, then advance through the `prototype`
slot (source lines 212-216, a read that may throw) while it is truthy.
The fuel bounds the number of `while` iterations; the mutated next level
is written back into the current level's `prototype` slot. -/
def forEachWritableProperties (visit : JSVisitor) : Nat → Value → List String → WalkRes
  | 0, cur, found => if cur.truthy then ⟨[], found, .fuelOut⟩ else ⟨[], found, .done cur⟩
  | fuel + 1, cur, found =>
    if !cur.truthy then ⟨[], found, .done cur⟩
    else
      let r := walkLevel visit cur found
      if r.err then ⟨r.log, r.found, .errored⟩
      else
        match readProp r.cur "prototype" with
        | .error _ => ⟨r.log, r.found, .errored⟩
        | .ok pv2 =>
          if pv2.truthy then
            let sub := forEachWritableProperties visit fuel pv2 r.found
            ⟨r.log ++ sub.log, sub.found,
              match sub.status with
              | .done fin => .done (writeBackProto r.cur fin)
              | s => s⟩
          else ⟨r.log, r.found, .done r.cur⟩

/-- The identity visitor: observes the walk without mutating anything. -/
def pureVisitor : JSVisitor := fun c _ => .ok c

/-- The pure observation walk: the identity visitor, recording only the
visit log. -/
def walkVisits (fuel : Nat) (obj : Value) : WalkRes :=
  forEachWritableProperties pureVisitor fuel obj []

/-- The visitor of `spyAllExcept` (source lines 42-50). -/
def spyVisitor (skip : List String) (behavior : Value) : JSVisitor := fun c m =>
  match readProp c m with
  | .error _ => .error ()
  | .ok methodToSpy =>
    if methodToSpy.typeofFunction then
      if spySkip skip m then .ok c
      else
        match spyIf c m behavior with
        | .error _ => .error ()
        | .ok (_, c1) => .ok c1
    else .ok c

/-- `spyAllExcept(obj, excepts, behavior)` (source lines 39-53); the JS
function returns `obj`, i.e. the walked-and-mutated root carried by a
`done` status. -/
def spyAllExcept (fuel : Nat) (obj excepts behavior : Value) : WalkRes :=
  forEachWritableProperties (spyVisitor (getMethodsToSkip excepts) behavior) fuel obj []

/-- `spyAll(obj)` (source lines 84-86). -/
def spyAll (fuel : Nat) (obj : Value) : WalkRes :=
  spyAllExcept fuel obj (.vArr []) .vUndefined

/-- The visitor of `resetAllExcept` (source lines 108-118). -/
def resetVisitor (skip : List String) : JSVisitor := fun c m =>
  match readProp c m with
  | .error _ => .error ()
  | .ok methodToSpy =>
    if methodToSpy.typeofFunction then
      if resetSkip skip m then .ok c
      else if methodToSpy.isSpy then .ok (updateChainValue c m resetSpyF) else .ok c
    else .ok c

/-- `resetAllExcept(obj, excepts)` (source lines 105-121). -/
def resetAllExcept (fuel : Nat) (obj excepts : Value) : WalkRes :=
  forEachWritableProperties (resetVisitor (getMethodsToSkip excepts)) fuel obj []

/-- `resetAll(obj)` (source lines 148-150). -/
def resetAll (fuel : Nat) (obj : Value) : WalkRes :=
  resetAllExcept fuel obj (.vArr [])

/-- Does a read of this property succeed? -/
def readOk (o : Value) (m : String) : Bool :=
  match readProp o m with
  | .ok _ => true
  | .error _ => false

/-! Concrete example objects used by the closed theorems below. -/

/-- An object whose member `foo` is a spy with one recorded call. -/
def exSpyFoo : Value :=
  .vObj [("foo", .vSpy 1 [[.vNum 7]] none, true, true, false)] none

/-- `exSpyFoo` after its spy has been reset. -/
def exSpyFooReset : Value :=
  .vObj [("foo", .vSpy 1 [] none, true, true, false)] none

/-- An object with one own non-enumerable property whose read throws
(the restricted `caller`-style member of the source's comment). -/
def exThrowing : Value :=
  .vObj [("caller", .vNum 0, true, false, true)] none

/-- An object with one own enumerable but non-writable property. -/
def exNonWritable : Value :=
  .vObj [("x", .vNum 1, false, true, false)] none

/-- An object with function members `a` and `foo`. -/
def exTwoFns : Value :=
  .vObj [("a", .vFunc 1, true, true, false), ("foo", .vFunc 2, true, true, false)] none

/-- `exTwoFns` after `spyAllExcept` with `foo` excepted. -/
def exTwoFnsSpied : Value :=
  .vObj [("a", .vSpy 1 [] none, true, true, false), ("foo", .vFunc 2, true, true, false)] none

/-- An object with one plain function member `f`. -/
def exOneFn : Value :=
  .vObj [("f", .vFunc 3, true, true, false)] none

/-- `exOneFn` with `f` spied. -/
def exOneFnSpied : Value :=
  .vObj [("f", .vSpy 3 [] none, true, true, false)] none

/-- A spy whose recorded calls are `[[1,2],[42,3],[5]]`. -/
def exSpyCalls : Value :=
  .vObj [("m", .vSpy 4 [[.vNum 1, .vNum 2], [.vNum 42, .vNum 3], [.vNum 5]] none,
          true, true, false)] none

/-- An object with a spy member `a` (one recorded call) and a plain
function member `b`. -/
def exSpyAndFn : Value :=
  .vObj [("a", .vSpy 1 [[.vNum 3]] none, true, true, false),
         ("b", .vFunc 2, true, true, false)] none

/-- A well-formed behavior spec value (`{name: 'andReturn', arguments: [5]}`). -/
def exBehavior : Value :=
  .vObj [("name", .vStr "andReturn", true, true, false),
         ("arguments", .vArr [.vNum 5], true, true, false)] none

/-- An object with three plain function members. -/
def exThreeFns : Value :=
  .vObj [("a", .vFunc 1, true, true, false), ("b", .vFunc 2, true, true, false),
         ("c", .vFunc 3, true, true, false)] none

/-- `exThreeFns` after `spyEach` with methods `[a,b,c]` and two behavior
specs: `a` and `b` get the configured behavior, `c` is spied plain. -/
def exThreeFnsSpied : Value :=
  .vObj [("a", .vSpy 1 [] (some ("andReturn", [.vNum 5])), true, true, false),
         ("b", .vSpy 2 [] (some ("andReturn", [.vNum 5])), true, true, false),
         ("c", .vSpy 3 [] none, true, true, false)] none

/-! Basic lemmas about own-entry lookup and update. -/

theorem getOwnEntry_name {own : List Entry} {n : String} {e : Entry}
    (h : getOwnEntry own n = some e) : e.1 = n := by
  induction own with
  | nil => simp [getOwnEntry] at h
  | cons a rest ih =>
    by_cases ha : a.1 = n
    · simp [getOwnEntry, ha] at h
      exact h ▸ ha
    · simp [getOwnEntry, ha] at h
      exact ih h

theorem getOwnEntry_mem {own : List Entry} {n : String} {e : Entry}
    (h : getOwnEntry own n = some e) : e ∈ own := by
  induction own with
  | nil => simp [getOwnEntry] at h
  | cons a rest ih =>
    by_cases ha : a.1 = n
    · simp [getOwnEntry, ha] at h
      simp [h]
    · simp [getOwnEntry, ha] at h
      exact List.mem_cons_of_mem _ (ih h)

theorem getOwnEntry_setOwnEntryValue_self {own : List Entry} {n : String} {e : Entry}
    (v : Value) (h : getOwnEntry own n = some e) :
    getOwnEntry (setOwnEntryValue own n v) n = some (e.1, v, e.2.2.1, e.2.2.2.1, e.2.2.2.2) := by
  induction own with
  | nil => simp [getOwnEntry] at h
  | cons a rest ih =>
    by_cases ha : a.1 = n
    · simp [getOwnEntry, ha] at h
      subst h
      simp [setOwnEntryValue, getOwnEntry, ha]
    · simp [getOwnEntry, ha] at h
      simp [setOwnEntryValue, getOwnEntry, ha, ih h]

theorem getOwnEntry_setOwnEntryValue_none {own : List Entry} {n : String}
    (v : Value) (h : getOwnEntry own n = none) :
    getOwnEntry (setOwnEntryValue own n v) n = some (n, v, true, true, false) := by
  induction own with
  | nil => simp [setOwnEntryValue, getOwnEntry]
  | cons a rest ih =>
    by_cases ha : a.1 = n
    · simp [getOwnEntry, ha] at h
    · simp [getOwnEntry, ha] at h
      simp [setOwnEntryValue, getOwnEntry, ha, ih h]

theorem getOwnEntry_setOwnEntryValue_ne {own : List Entry} {m n : String}
    (v : Value) (h : n ≠ m) :
    getOwnEntry (setOwnEntryValue own m v) n = getOwnEntry own n := by
  induction own with
  | nil => simp [setOwnEntryValue, getOwnEntry, Ne.symm h]
  | cons a rest ih =>
    by_cases ha : a.1 = m
    · have han : a.1 ≠ n := fun hh => h (hh.symm.trans ha)
      simp [setOwnEntryValue, getOwnEntry, ha, han, h, Ne.symm h]
    · by_cases hb : a.1 = n
      · simp [setOwnEntryValue, getOwnEntry, ha, hb, h, Ne.symm h]
      · simp [setOwnEntryValue, getOwnEntry, ha, hb, h, ih]

theorem getOwnEntry_mapEntryValue_self {own : List Entry} {n : String} {e : Entry}
    (f : Value → Value) (h : getOwnEntry own n = some e) :
    getOwnEntry (mapEntryValue own n f) n = some (e.1, f e.2.1, e.2.2.1, e.2.2.2.1, e.2.2.2.2) := by
  induction own with
  | nil => simp [getOwnEntry] at h
  | cons a rest ih =>
    by_cases ha : a.1 = n
    · simp [getOwnEntry, ha] at h
      subst h
      simp [mapEntryValue, getOwnEntry, ha]
    · simp [getOwnEntry, ha] at h
      simp [mapEntryValue, getOwnEntry, ha, ih h]

theorem mapEntryValue_of_none {own : List Entry} {n : String}
    (f : Value → Value) (h : getOwnEntry own n = none) :
    mapEntryValue own n f = own := by
  induction own with
  | nil => simp [mapEntryValue]
  | cons a rest ih =>
    by_cases ha : a.1 = n
    · simp [getOwnEntry, ha] at h
    · simp [getOwnEntry, ha] at h
      simp [mapEntryValue, ha, ih h]

theorem getOwnEntry_mapEntryValue_ne {own : List Entry} {m n : String}
    (f : Value → Value) (h : n ≠ m) :
    getOwnEntry (mapEntryValue own m f) n = getOwnEntry own n := by
  induction own with
  | nil => simp [mapEntryValue]
  | cons a rest ih =>
    by_cases ha : a.1 = m
    · have han : a.1 ≠ n := fun hh => h (hh.symm.trans ha)
      simp [mapEntryValue, getOwnEntry, ha, han, h, Ne.symm h]
    · by_cases hb : a.1 = n
      · simp [mapEntryValue, getOwnEntry, ha, hb, h, Ne.symm h]
      · simp [mapEntryValue, getOwnEntry, ha, hb, h, ih]

/-! Lemmas about property reads against updated objects. -/

theorem readProp_vObj_entry {own : List Entry} {n : String} {e : Entry}
    (ip : Option Value) (he : getOwnEntry own n = some e) :
    readProp (.vObj own ip) n = if entryThrows e then .error () else .ok (entryVal e) := by
  cases ip <;> simp [readProp, he]

theorem readProp_vObj_miss_some {own : List Entry} {n : String}
    (p : Value) (he : getOwnEntry own n = none) :
    readProp (.vObj own (some p)) n = readProp p n := by
  simp [readProp, he]

theorem readProp_vObj_miss_none {own : List Entry} {n : String}
    (he : getOwnEntry own n = none) :
    readProp (.vObj own none) n = .ok .vUndefined := by
  simp [readProp, he]

theorem readProp_ok_entry {own : List Entry} {ip : Option Value} {n : String} {e : Entry}
    {u : Value} (he : getOwnEntry own n = some e)
    (h : readProp (.vObj own ip) n = .ok u) :
    entryThrows e = false ∧ entryVal e = u := by
  rw [readProp_vObj_entry ip he] at h
  by_cases hth : entryThrows e
  · simp [hth] at h
  · simp [hth] at h
    exact ⟨by simpa using hth, h⟩

theorem readProp_not_vObj {o : Value} (h : ∀ own ip, o ≠ .vObj own ip) (n : String) :
    readProp o n = .ok .vUndefined := by
  cases o <;> first | rfl | exact absurd rfl (h _ _)

theorem readProp_function_vObj {o : Value} {m : String} {u : Value}
    (h : readProp o m = .ok u) (hf : u.typeofFunction = true) :
    ∃ own ip, o = .vObj own ip := by
  cases o with
  | vObj own ip => exact ⟨own, ip, rfl⟩
  | _ =>
    simp [readProp] at h
    subst h
    simp [Value.typeofFunction] at hf

theorem readProp_setOwnValue_self {own : List Entry} {ip : Option Value} {m : String} {u : Value}
    (v : Value) (h : readProp (.vObj own ip) m = .ok u) :
    readProp (setOwnValue (.vObj own ip) m v) m = .ok v := by
  rw [show setOwnValue (.vObj own ip) m v = .vObj (setOwnEntryValue own m v) ip from rfl]
  cases he : getOwnEntry own m with
  | some e =>
    obtain ⟨hth, _⟩ := readProp_ok_entry he h
    rw [readProp_vObj_entry ip (getOwnEntry_setOwnEntryValue_self v he)]
    simp only [entryThrows] at hth
    simp [entryThrows, entryVal, hth]
  | none =>
    rw [readProp_vObj_entry ip (getOwnEntry_setOwnEntryValue_none v he)]
    simp [entryThrows, entryVal]

theorem readProp_setOwnValue_ne {o : Value} {m n : String} (v : Value) (h : n ≠ m) :
    readProp (setOwnValue o m v) n = readProp o n := by
  cases o with
  | vObj own ip =>
    rw [show setOwnValue (.vObj own ip) m v = .vObj (setOwnEntryValue own m v) ip from rfl]
    cases he : getOwnEntry own n with
    | some e =>
      rw [readProp_vObj_entry ip he,
        readProp_vObj_entry ip ((getOwnEntry_setOwnEntryValue_ne v h).trans he)]
    | none =>
      have he2 : getOwnEntry (setOwnEntryValue own m v) n = none :=
        (getOwnEntry_setOwnEntryValue_ne v h).trans he
      cases ip with
      | some p => rw [readProp_vObj_miss_some p he, readProp_vObj_miss_some p he2]
      | none => rw [readProp_vObj_miss_none he, readProp_vObj_miss_none he2]
  | _ => rfl

theorem objGetOwn_setOwnValue_ne {o : Value} {m n : String} (v : Value) (h : n ≠ m) :
    objGetOwn (setOwnValue o m v) n = objGetOwn o n := by
  cases o with
  | vObj own ip =>
    simp [setOwnValue, objGetOwn, getOwnEntry_setOwnEntryValue_ne v h]
  | _ => rfl

theorem objGetOwn_setOwnValue_self {own : List Entry} {ip : Option Value} {m : String} {e : Entry}
    (v : Value) (h : objGetOwn (.vObj own ip) m = some e) :
    objGetOwn (setOwnValue (.vObj own ip) m v) m
      = some (e.1, v, e.2.2.1, e.2.2.2.1, e.2.2.2.2) := by
  simp [objGetOwn] at h
  simp [setOwnValue, objGetOwn, getOwnEntry_setOwnEntryValue_self v h]

theorem updateChainValue_vObj_some (own : List Entry) (p : Value) (m : String)
    (f : Value → Value) :
    updateChainValue (.vObj own (some p)) m f
      = if (getOwnEntry own m).isSome then .vObj (mapEntryValue own m f) (some p)
        else .vObj own (some (updateChainValue p m f)) := by
  rfl

theorem readProp_updateChainValue_self :
    ∀ (o : Value) {m : String} {u : Value} (f : Value → Value),
      f .vUndefined = .vUndefined → readProp o m = .ok u →
      readProp (updateChainValue o m f) m = .ok (f u)
  | .vObj own (some p), m, u, f, hf, h => by
    cases he : getOwnEntry own m with
    | some e =>
      obtain ⟨hth, hval⟩ := readProp_ok_entry he h
      rw [updateChainValue_vObj_some]
      simp only [he, Option.isSome_some, if_true]
      rw [readProp_vObj_entry (some p) (getOwnEntry_mapEntryValue_self f he)]
      simp only [entryThrows] at hth
      simp only [entryVal] at hval
      simp [entryThrows, entryVal, hth, hval]
    | none =>
      rw [readProp_vObj_miss_some p he] at h
      rw [updateChainValue_vObj_some]
      simp only [he, Option.isSome_none, Bool.false_eq_true, if_false]
      rw [readProp_vObj_miss_some _ he]
      exact readProp_updateChainValue_self p f hf h
  | .vObj own none, m, u, f, hf, h => by
    cases he : getOwnEntry own m with
    | some e =>
      obtain ⟨hth, hval⟩ := readProp_ok_entry he h
      rw [show updateChainValue (.vObj own none) m f = .vObj (mapEntryValue own m f) none
        from rfl]
      rw [readProp_vObj_entry none (getOwnEntry_mapEntryValue_self f he)]
      simp only [entryThrows] at hth
      simp only [entryVal] at hval
      simp [entryThrows, entryVal, hth, hval]
    | none =>
      rw [readProp_vObj_miss_none he] at h
      rw [show updateChainValue (.vObj own none) m f = .vObj (mapEntryValue own m f) none
        from rfl]
      rw [mapEntryValue_of_none f he, readProp_vObj_miss_none he]
      simp only [Except.ok.injEq] at h
      rw [← h, hf]
  | .vUndefined, _, _, f, hf, h => by
    simp only [readProp, Except.ok.injEq] at h
    simp [updateChainValue, readProp, ← h, hf]
  | .vNull, _, _, f, hf, h => by
    simp only [readProp, Except.ok.injEq] at h
    simp [updateChainValue, readProp, ← h, hf]
  | .vBool _, _, _, f, hf, h => by
    simp only [readProp, Except.ok.injEq] at h
    simp [updateChainValue, readProp, ← h, hf]
  | .vNum _, _, _, f, hf, h => by
    simp only [readProp, Except.ok.injEq] at h
    simp [updateChainValue, readProp, ← h, hf]
  | .vStr _, _, _, f, hf, h => by
    simp only [readProp, Except.ok.injEq] at h
    simp [updateChainValue, readProp, ← h, hf]
  | .vFunc _, _, _, f, hf, h => by
    simp only [readProp, Except.ok.injEq] at h
    simp [updateChainValue, readProp, ← h, hf]
  | .vSpy _ _ _, _, _, f, hf, h => by
    simp only [readProp, Except.ok.injEq] at h
    simp [updateChainValue, readProp, ← h, hf]
  | .vArr _, _, _, f, hf, h => by
    simp only [readProp, Except.ok.injEq] at h
    simp [updateChainValue, readProp, ← h, hf]

theorem readProp_updateChainValue_ne :
    ∀ (o : Value) {m n : String} (f : Value → Value), n ≠ m →
      readProp (updateChainValue o m f) n = readProp o n
  | .vObj own (some p), m, n, f, h => by
    rw [updateChainValue_vObj_some]
    cases hs : getOwnEntry own m with
    | some e0 =>
      simp only [hs, Option.isSome_some, if_true]
      cases he : getOwnEntry own n with
      | some e =>
        rw [readProp_vObj_entry _ he,
          readProp_vObj_entry _ ((getOwnEntry_mapEntryValue_ne f h).trans he)]
      | none =>
        rw [readProp_vObj_miss_some _ he,
          readProp_vObj_miss_some _ ((getOwnEntry_mapEntryValue_ne f h).trans he)]
    | none =>
      simp only [hs, Option.isSome_none, Bool.false_eq_true, if_false]
      cases he : getOwnEntry own n with
      | some e => rw [readProp_vObj_entry _ he, readProp_vObj_entry _ he]
      | none =>
        rw [readProp_vObj_miss_some _ he, readProp_vObj_miss_some _ he]
        exact readProp_updateChainValue_ne p f h
  | .vObj own none, m, n, f, h => by
    rw [show updateChainValue (.vObj own none) m f = .vObj (mapEntryValue own m f) none
      from rfl]
    cases he : getOwnEntry own n with
    | some e =>
      rw [readProp_vObj_entry _ he,
        readProp_vObj_entry _ ((getOwnEntry_mapEntryValue_ne f h).trans he)]
    | none =>
      rw [readProp_vObj_miss_none he,
        readProp_vObj_miss_none ((getOwnEntry_mapEntryValue_ne f h).trans he)]
  | .vUndefined, _, _, _, _ => rfl
  | .vNull, _, _, _, _ => rfl
  | .vBool _, _, _, _, _ => rfl
  | .vNum _, _, _, _, _ => rfl
  | .vStr _, _, _, _, _ => rfl
  | .vFunc _, _, _, _, _ => rfl
  | .vSpy _ _ _, _, _, _, _ => rfl
  | .vArr _, _, _, _, _ => rfl

/-! Lemmas about `spyIf` and the external-framework model. -/

theorem applyBehavior_ok_isSpy {s b s1 : Value} (h : applyBehavior s b = .ok s1) :
    s1.isSpy = true := by
  unfold applyBehavior at h
  cases hn : readProp b "name" with
  | error e =>
    cases ha : readProp b "arguments" with
    | error e2 => simp only [hn, ha] at h; exact Except.noConfusion h
    | ok argsV => simp only [hn, ha] at h; exact Except.noConfusion h
  | ok nameV =>
    cases ha : readProp b "arguments" with
    | error e2 => simp only [hn, ha] at h; exact Except.noConfusion h
    | ok argsV =>
      simp only [hn, ha] at h
      by_cases hm : nameV.jsToString ∈ spyConfigNames
      · rw [if_pos hm] at h
        cases s <;> cases argsV <;>
          first
          | exact Except.noConfusion h
          | (simp only [Except.ok.injEq] at h; rw [← h]; rfl)
      · rw [if_neg hm] at h
        exact Except.noConfusion h

theorem spyIf_else {obj : Value} {m : String} {v : Value}
    (hr : readProp obj m = .ok v) (hk : v.typeofFunction = false ∨ v.isSpy = true)
    (b : Value) : spyIf obj m b = .ok (v, obj) := by
  have hc : (v.typeofFunction && !v.isSpy) = false := by
    rcases hk with hk | hk <;> simp [hk]
  unfold spyIf
  rw [hr]
  simp only [hc, Bool.false_eq_true, if_false]

theorem spyIf_ok_read {obj : Value} {m : String} {b s o1 : Value}
    (h : spyIf obj m b = .ok (s, o1)) : readProp o1 m = .ok s := by
  unfold spyIf spyOn at h
  cases hr : readProp obj m with
  | error e => simp only [hr] at h; exact Except.noConfusion h
  | ok mts =>
    simp only [hr] at h
    by_cases hc : (mts.typeofFunction && !mts.isSpy) = true
    · rw [if_pos hc] at h
      have hfn : mts.typeofFunction = true := by
        cases hA : mts.typeofFunction <;> simp [hA] at hc ⊢
      obtain ⟨own, ip, rfl⟩ := readProp_function_vObj hr hfn
      by_cases hb : b.truthy = true
      · rw [if_pos hb] at h
        cases ha : applyBehavior (mkSpy mts) b with
        | error e => simp only [ha] at h; exact Except.noConfusion h
        | ok s1 =>
          simp only [ha, Except.ok.injEq, Prod.mk.injEq] at h
          obtain ⟨rfl, rfl⟩ := h
          rw [show setOwnValue (.vObj own ip) m (mkSpy mts)
              = .vObj (setOwnEntryValue own m (mkSpy mts)) ip from rfl]
          exact readProp_setOwnValue_self _
            (readProp_setOwnValue_self (mkSpy mts) hr)
      · rw [if_neg hb] at h
        simp only [Except.ok.injEq, Prod.mk.injEq] at h
        obtain ⟨rfl, rfl⟩ := h
        exact readProp_setOwnValue_self _ hr
    · rw [if_neg hc] at h
      simp only [Except.ok.injEq, Prod.mk.injEq] at h
      obtain ⟨rfl, rfl⟩ := h
      exact hr

theorem spyIf_ok_kind {obj : Value} {m : String} {b s o1 : Value}
    (h : spyIf obj m b = .ok (s, o1)) : s.typeofFunction = false ∨ s.isSpy = true := by
  unfold spyIf spyOn at h
  cases hr : readProp obj m with
  | error e => simp only [hr] at h; exact Except.noConfusion h
  | ok mts =>
    simp only [hr] at h
    by_cases hc : (mts.typeofFunction && !mts.isSpy) = true
    · rw [if_pos hc] at h
      by_cases hb : b.truthy = true
      · rw [if_pos hb] at h
        cases ha : applyBehavior (mkSpy mts) b with
        | error e => simp only [ha] at h; exact Except.noConfusion h
        | ok s1 =>
          simp only [ha, Except.ok.injEq, Prod.mk.injEq] at h
          obtain ⟨rfl, rfl⟩ := h
          exact Or.inr (applyBehavior_ok_isSpy ha)
      · rw [if_neg hb] at h
        simp only [Except.ok.injEq, Prod.mk.injEq] at h
        obtain ⟨rfl, rfl⟩ := h
        exact Or.inr (by cases mts <;> simp [mkSpy, Value.isSpy])
    · rw [if_neg hc] at h
      simp only [Except.ok.injEq, Prod.mk.injEq] at h
      obtain ⟨rfl, rfl⟩ := h
      cases hA : mts.typeofFunction <;> cases hB : mts.isSpy <;> simp_all

theorem spyIf_readProp_ne {obj : Value} {m : String} {b s o1 : Value} {n : String}
    (h : spyIf obj m b = .ok (s, o1)) (hn : n ≠ m) :
    readProp o1 n = readProp obj n := by
  unfold spyIf spyOn at h
  cases hr : readProp obj m with
  | error e => simp only [hr] at h; exact Except.noConfusion h
  | ok mts =>
    simp only [hr] at h
    by_cases hc : (mts.typeofFunction && !mts.isSpy) = true
    · rw [if_pos hc] at h
      by_cases hb : b.truthy = true
      · rw [if_pos hb] at h
        cases ha : applyBehavior (mkSpy mts) b with
        | error e => simp only [ha] at h; exact Except.noConfusion h
        | ok s1 =>
          simp only [ha, Except.ok.injEq, Prod.mk.injEq] at h
          obtain ⟨rfl, rfl⟩ := h
          rw [readProp_setOwnValue_ne _ hn, readProp_setOwnValue_ne (mkSpy mts) hn]
      · rw [if_neg hb] at h
        simp only [Except.ok.injEq, Prod.mk.injEq] at h
        obtain ⟨rfl, rfl⟩ := h
        rw [readProp_setOwnValue_ne (mkSpy mts) hn]
    · rw [if_neg hc] at h
      simp only [Except.ok.injEq, Prod.mk.injEq] at h
      obtain ⟨rfl, rfl⟩ := h
      rfl

theorem spyIf_objGetOwn_ne {obj : Value} {m : String} {b s o1 : Value} {n : String}
    (h : spyIf obj m b = .ok (s, o1)) (hn : n ≠ m) :
    objGetOwn o1 n = objGetOwn obj n := by
  unfold spyIf spyOn at h
  cases hr : readProp obj m with
  | error e => simp only [hr] at h; exact Except.noConfusion h
  | ok mts =>
    simp only [hr] at h
    by_cases hc : (mts.typeofFunction && !mts.isSpy) = true
    · rw [if_pos hc] at h
      by_cases hb : b.truthy = true
      · rw [if_pos hb] at h
        cases ha : applyBehavior (mkSpy mts) b with
        | error e => simp only [ha] at h; exact Except.noConfusion h
        | ok s1 =>
          simp only [ha, Except.ok.injEq, Prod.mk.injEq] at h
          obtain ⟨rfl, rfl⟩ := h
          rw [objGetOwn_setOwnValue_ne _ hn, objGetOwn_setOwnValue_ne (mkSpy mts) hn]
      · rw [if_neg hb] at h
        simp only [Except.ok.injEq, Prod.mk.injEq] at h
        obtain ⟨rfl, rfl⟩ := h
        rw [objGetOwn_setOwnValue_ne (mkSpy mts) hn]
    · rw [if_neg hc] at h
      simp only [Except.ok.injEq, Prod.mk.injEq] at h
      obtain ⟨rfl, rfl⟩ := h
      rfl

/-- C6: `spyIf` is idempotent.  A successful call returns `(s, o1)`; the
immediately repeated call (with any behavior) returns the same spy handle
`s` and leaves the object `o1` unchanged, installing no second wrapping
spy.  And when the member is already a spy or not a plain function, the
original value is returned unchanged with no side effect. -/
theorem spyIf_idempotent :
    (∀ (obj : Value) (m : String) (b b2 s o1 : Value),
        spyIf obj m b = .ok (s, o1) → spyIf o1 m b2 = .ok (s, o1)) ∧
    (∀ (obj : Value) (m : String) (b v : Value),
        readProp obj m = .ok v → v.typeofFunction = false ∨ v.isSpy = true →
        spyIf obj m b = .ok (v, obj)) := by
  constructor
  · intro obj m b b2 s o1 h
    exact spyIf_else (spyIf_ok_read h) (spyIf_ok_kind h) b2
  · intro obj m b v hr hk
    exact spyIf_else hr hk b

/-- Witness for C6 at a concrete object: spying `f` once installs a spy,
and a second `spyIf` returns the same handle with no further change. -/
theorem spyIf_idempotent_witness :
    spyIf exOneFn "f" .vUndefined = .ok (.vSpy 3 [] none, exOneFnSpied) ∧
    spyIf exOneFnSpied "f" .vUndefined = .ok (.vSpy 3 [] none, exOneFnSpied) :=
  ⟨rfl, spyIf_idempotent.1 exOneFn "f" .vUndefined .vUndefined (.vSpy 3 [] none) exOneFnSpied rfl⟩

/-- C7: the call scan returns the first recorded call, in recording
order, whose argument list contains the argument (host default equality),
and the undefined sentinel when no call matches; reading through
`getCallWithArg` on a spy member returns exactly that scan's result and
mutates nothing. -/
theorem getCallWithArg_first_match :
    (∀ (calls : List (List Value)) (arg : Value),
        getCallLoop calls arg = calls.find? (fun c => c.any (fun x => jsStrictEq x arg))) ∧
    (∀ (obj : Value) (m : String) (arg : Value) (k : Nat) (calls : List (List Value))
        (beh : Option (String × List Value)),
        readProp obj m = .ok (.vSpy k calls beh) →
        getCallWithArg obj m arg
          = .ok (calls.find? (fun c => c.any (fun x => jsStrictEq x arg)))) := by
  have h1 : ∀ (calls : List (List Value)) (arg : Value),
      getCallLoop calls arg = calls.find? (fun c => c.any (fun x => jsStrictEq x arg)) := by
    intro calls arg
    induction calls with
    | nil => rfl
    | cons c rest ih =>
      by_cases hc : c.any (fun x => jsStrictEq x arg) = true <;>
        simp [getCallLoop, List.find?_cons, hc, ih]
  refine ⟨h1, ?_⟩
  intro obj m arg k calls beh h
  unfold getCallWithArg
  simp only [h]
  rw [h1]

/-- Witness for C7 on the spec's example: calls `[[1,2],[42,3],[5]]` with
argument `42` yield the record `[42,3]`; argument `99` yields the absent
sentinel. -/
theorem getCallWithArg_first_match_witness :
    getCallWithArg exSpyCalls "m" (.vNum 42) = .ok (some [.vNum 42, .vNum 3]) ∧
    getCallWithArg exSpyCalls "m" (.vNum 99) = .ok none := by
  constructor
  · exact (getCallWithArg_first_match.2 exSpyCalls "m" (.vNum 42) 4
      [[.vNum 1, .vNum 2], [.vNum 42, .vNum 3], [.vNum 5]] none rfl).trans (by rfl)
  · exact (getCallWithArg_first_match.2 exSpyCalls "m" (.vNum 99) 4
      [[.vNum 1, .vNum 2], [.vNum 42, .vNum 3], [.vNum 5]] none rfl).trans (by rfl)

/-! Lemmas about `resetSpyF` and `resetEach`. -/

theorem isSpy_resetSpyF (v : Value) : (resetSpyF v).isSpy = v.isSpy := by
  cases v <;> rfl

theorem resetSpyF_idem (v : Value) : resetSpyF (resetSpyF v) = resetSpyF v := by
  cases v <;> rfl

theorem resetEachLoop_cons (o mv : Value) (rest : List Value) :
    resetEachLoop o (mv :: rest) =
      match readProp o (jsToString mv) with
      | .error _ => .error ()
      | .ok s =>
        if s.isSpy then resetEachLoop (updateChainValue o (jsToString mv) resetSpyF) rest
        else resetEachLoop o rest := by
  rfl

/-- C8: `resetEach` normalizes a single name to a one-element sequence;
when every named read succeeds it completes without error, each named
member that is currently a spy ends reset (calls and behavior cleared),
and every other member -- a named non-spy or an unnamed property -- is
left unchanged. -/
theorem resetEach_resets_spies_skips_nonspies :
    (∀ (obj v : Value), (∀ l, v ≠ .vArr l) → resetEach obj v = resetEach obj (.vArr [v])) ∧
    (∀ (obj : Value) (ms : List Value),
        (ms.all fun mv => readOk obj (jsToString mv)) = true →
        ∃ fin, resetEach obj (.vArr ms) = .ok fin ∧
          ∀ (n : String) (v : Value), readProp obj n = .ok v →
            readProp fin n
              = .ok (if decide (n ∈ ms.map jsToString) && v.isSpy then resetSpyF v else v)) := by
  have main : ∀ (ms : List Value) (obj : Value),
      (ms.all fun mv => readOk obj (jsToString mv)) = true →
      ∃ fin, resetEachLoop obj ms = .ok fin ∧
        ∀ (n : String) (v : Value), readProp obj n = .ok v →
          readProp fin n
            = .ok (if decide (n ∈ ms.map jsToString) && v.isSpy then resetSpyF v else v) := by
    intro ms
    induction ms with
    | nil =>
      intro obj _
      refine ⟨obj, rfl, ?_⟩
      intro n v hv
      simpa using hv
    | cons mv rest ih =>
      intro obj hall
      simp only [List.all_cons, Bool.and_eq_true] at hall
      obtain ⟨h1, h2⟩ := hall
      cases hr : readProp obj (jsToString mv) with
      | error e => unfold readOk at h1; rw [hr] at h1; exact Bool.noConfusion h1
      | ok u =>
        by_cases hs : u.isSpy = true
        · have hall1 : (rest.all fun x =>
              readOk (updateChainValue obj (jsToString mv) resetSpyF) (jsToString x)) = true := by
            rw [List.all_eq_true] at h2 ⊢
            intro x hx
            have hx2 := h2 x hx
            by_cases hxm : jsToString x = jsToString mv
            · rw [hxm]
              unfold readOk
              rw [readProp_updateChainValue_self obj resetSpyF rfl hr]
            · unfold readOk at hx2 ⊢
              rw [readProp_updateChainValue_ne obj resetSpyF hxm]
              exact hx2
          obtain ⟨fin, hloop, hprop⟩ := ih _ hall1
          refine ⟨fin, ?_, ?_⟩
          · rw [resetEachLoop_cons, hr]
            simp only [hs, if_true]
            exact hloop
          · intro n v hv
            by_cases hnm : n = jsToString mv
            · have hv2 : readProp obj (jsToString mv) = .ok v := by
                rw [← hnm]; exact hv
              have hvu : v = u := Except.ok.inj (hv2.symm.trans hr)
              have hro1 : readProp (updateChainValue obj (jsToString mv) resetSpyF) n
                  = .ok (resetSpyF v) := by
                rw [hnm]
                exact readProp_updateChainValue_self obj resetSpyF rfl hv2
              have hfin := hprop n (resetSpyF v) hro1
              rw [hfin]
              have hmem : n ∈ List.map jsToString (mv :: rest) := by
                simp [List.map_cons, hnm]
              by_cases hrm : n ∈ List.map jsToString rest <;>
                simp [hrm, hmem, isSpy_resetSpyF, hvu, hs, resetSpyF_idem, hnm]
            · have hro1 : readProp (updateChainValue obj (jsToString mv) resetSpyF) n
                  = readProp obj n := readProp_updateChainValue_ne obj resetSpyF hnm
              have hfin := hprop n v (hro1.trans hv)
              rw [hfin]
              simp [List.map_cons, List.mem_cons, hnm]
        · obtain ⟨fin, hloop, hprop⟩ := ih obj h2
          refine ⟨fin, ?_, ?_⟩
          · rw [resetEachLoop_cons, hr]
            simp only [hs, Bool.false_eq_true, if_false]
            exact hloop
          · intro n v hv
            have hfin := hprop n v hv
            rw [hfin]
            by_cases hnm : n = jsToString mv
            · have hv2 : readProp obj (jsToString mv) = .ok v := by
                rw [← hnm]; exact hv
              have hvu : v = u := Except.ok.inj (hv2.symm.trans hr)
              have hsv : v.isSpy = false := by
                rw [hvu]
                cases hub : u.isSpy
                · rfl
                · exact absurd hub hs
              simp [hsv]
            · simp [List.map_cons, List.mem_cons, hnm]
  constructor
  · intro obj v hv
    cases v with
    | vArr l => exact absurd rfl (hv l)
    | _ => rfl
  · intro obj ms hall
    exact main ms obj hall

/-- Witness for C8: on an object with spy `a` (one recorded call) and
plain function `b`, `resetEach(obj, ['a','b'])` succeeds, clears `a`, and
leaves `b` and everything else unchanged. -/
theorem resetEach_resets_spies_skips_nonspies_witness :
    ∃ fin, resetEach exSpyAndFn (.vArr [.vStr "a", .vStr "b"]) = .ok fin ∧
      ∀ (n : String) (v : Value), readProp exSpyAndFn n = .ok v →
        readProp fin n
          = .ok (if decide (n ∈ [Value.vStr "a", Value.vStr "b"].map jsToString) && v.isSpy
                 then resetSpyF v else v) :=
  resetEach_resets_spies_skips_nonspies.2 exSpyAndFn [.vStr "a", .vStr "b"] (by rfl)

/-- C1 (code bug): the skip test of `resetAllExcept` is inverted
(`&& !methodsToSkip[method]` where `getMethodsToSkip` only ever stores
`true`), so it is constantly false and the exception list is ignored: on
an object whose member `foo` is a spy with one recorded call,
`resetAllExcept(obj, ['foo'])` visits `foo` and resets it even though
`foo` is in the exception list. -/
theorem resetAllExcept_resets_excepted :
    (∀ (skip : List String) (m : String), resetSkip skip m = false) ∧
    resetAllExcept 2 exSpyFoo (.vArr [.vStr "foo"])
      = ⟨[(exSpyFoo, "foo")], ["foo"], .done exSpyFooReset⟩ := by
  constructor
  · intro skip m
    unfold resetSkip mtsLookup
    by_cases h1 : m ∈ skip
    · simp [h1]
    · by_cases h2 : m ∈ objectProtoKeys <;> simp [h1, h2]
  · rfl

/-- C2 (code bug): the filter at source lines 177-184 returns `true`
exactly when the read throws, so `props` collects the inaccessible names
and line 198 then reads them outside any try/catch: on an object with one
own non-enumerable property whose read throws, the walk propagates the
exception (status `errored`) instead of swallowing it, although the
throwing name itself is never passed to the visitor (empty log). -/
theorem walk_throws_on_inaccessible :
    walkVisits 2 exThrowing = ⟨[], [], .errored⟩ := rfl

/-! Lemmas about `spyEach`. -/

theorem spyEachLoop_cons (bs : List Value) (sg : Bool) (o mv : Value) (rest : List Value)
    (i : Nat) :
    spyEachLoop bs sg o (mv :: rest) i =
      match spyIf o (jsToString mv) (if sg then bs.getD 0 .vUndefined else bs.getD i .vUndefined) with
      | .error _ => .error ()
      | .ok (_, o1) => spyEachLoop bs sg o1 rest (i + 1) := by
  rfl

theorem spyEachLoop_readProp_ne (bs : List Value) (sg : Bool) :
    ∀ (list : List Value) (o : Value) (i : Nat) (fin : Value) (n : String),
      spyEachLoop bs sg o list i = .ok fin →
      (∀ mv ∈ list, jsToString mv ≠ n) →
      readProp fin n = readProp o n := by
  intro list
  induction list with
  | nil =>
    intro o i fin n h hdis
    rw [← Except.ok.inj h]
  | cons mv rest ih =>
    intro o i fin n h hdis
    rw [spyEachLoop_cons] at h
    cases hstep : spyIf o (jsToString mv) (if sg then bs.getD 0 .vUndefined else bs.getD i .vUndefined) with
    | error e => simp only [hstep] at h; exact Except.noConfusion h
    | ok pr =>
      obtain ⟨s, o1⟩ := pr
      simp only [hstep] at h
      have hne : n ≠ jsToString mv := Ne.symm (hdis mv (List.mem_cons_self mv rest))
      rw [ih o1 (i + 1) fin n h (fun x hx => hdis x (List.mem_cons_of_mem _ hx)),
        spyIf_readProp_ne hstep hne]

theorem spyEachLoop_install (bs : List Value) :
    ∀ (list : List Value) (o : Value) (i : Nat) (fin : Value),
      spyEachLoop bs false o list i = .ok fin →
      (list.map jsToString).Nodup →
      ∀ (j : Nat) (hj : j < list.length) (k : Nat),
        bs.length ≤ i + j →
        readProp o (jsToString (list.get ⟨j, hj⟩)) = .ok (.vFunc k) →
        readProp fin (jsToString (list.get ⟨j, hj⟩)) = .ok (.vSpy k [] none) := by
  intro list
  induction list with
  | nil =>
    intro o i fin h hnd j hj
    exact absurd hj (by simp)
  | cons mv rest ih =>
    intro o i fin h hnd j hj k hlen hread
    rw [spyEachLoop_cons] at h
    rw [List.map_cons, List.nodup_cons] at hnd
    obtain ⟨hhead, hrest⟩ := hnd
    cases j with
    | zero =>
      have hget : (mv :: rest).get ⟨0, hj⟩ = mv := rfl
      rw [hget] at hread ⊢
      have hb : (if false = true then bs.getD 0 Value.vUndefined else bs.getD i Value.vUndefined)
          = .vUndefined := by
        simp only [Bool.false_eq_true, if_false]
        exact List.getD_eq_default _ _ (by omega)
      rw [hb] at h
      have hspy : spyIf o (jsToString mv) .vUndefined
          = .ok (.vSpy k [] none, setOwnValue o (jsToString mv) (.vSpy k [] none)) := by
        unfold spyIf spyOn
        rw [hread]
        simp [Value.typeofFunction, Value.isSpy, mkSpy, Value.truthy]
      simp only [hspy] at h
      obtain ⟨own, ip, rfl⟩ := readProp_function_vObj hread rfl
      have hro1 : readProp (setOwnValue (.vObj own ip) (jsToString mv) (.vSpy k [] none))
          (jsToString mv) = .ok (.vSpy k [] none) :=
        readProp_setOwnValue_self _ hread
      have hdis : ∀ x ∈ rest, jsToString x ≠ jsToString mv := by
        intro x hx hxe
        exact hhead (hxe ▸ List.mem_map_of_mem jsToString hx)
      rw [spyEachLoop_readProp_ne bs false rest _ (i + 1) fin (jsToString mv) h hdis, hro1]
    | succ j2 =>
      have hj2 : j2 < rest.length := by
        simpa using Nat.lt_of_succ_lt_succ hj
      have hget : (mv :: rest).get ⟨j2 + 1, hj⟩ = rest.get ⟨j2, hj2⟩ := rfl
      rw [hget] at hread ⊢
      cases hstep : spyIf o (jsToString mv)
          (if false = true then bs.getD 0 Value.vUndefined else bs.getD i Value.vUndefined) with
      | error e => simp only [hstep] at h; exact Except.noConfusion h
      | ok pr =>
        obtain ⟨s, o1⟩ := pr
        simp only [hstep] at h
        have hne : jsToString (rest.get ⟨j2, hj2⟩) ≠ jsToString mv := by
          intro hxe
          exact hhead (hxe ▸ List.mem_map_of_mem jsToString (rest.get_mem _ _))
        have hread1 : readProp o1 (jsToString (rest.get ⟨j2, hj2⟩)) = .ok (.vFunc k) := by
          rw [spyIf_readProp_ne hstep hne]
          exact hread
        exact ih o1 (i + 1) fin h hrest j2 hj2 k (by omega) hread1

/-- C10: when `spyEach` is called with a behaviors sequence of length at
least 2 that is shorter than the methods sequence (so the positional
pairing is in effect), every method whose index is past the end of the
behaviors sequence is still spied, with the out-of-range behavior lookup
yielding `undefined` and hence no behavior configured on the new spy; the
call returns the (mutated) object. -/
theorem spyEach_out_of_range_behavior :
    ∀ (obj : Value) (ms bs : List Value) (fin : Value),
      spyEach obj (.vArr ms) (.vArr bs) = .ok fin →
      2 ≤ bs.length →
      (ms.map jsToString).Nodup →
      ∀ (i : Nat) (hi : i < ms.length) (k : Nat),
        bs.length ≤ i →
        readProp obj (jsToString (ms.get ⟨i, hi⟩)) = .ok (.vFunc k) →
        readProp fin (jsToString (ms.get ⟨i, hi⟩)) = .ok (.vSpy k [] none) := by
  intro obj ms bs fin h h2 hnd i hi k hlen hread
  unfold spyEach at h
  have hsg : (bs.length == 1) = false := by
    cases hb : bs.length == 1
    · rfl
    · exfalso
      have hb1 : bs.length = 1 := by simpa using hb
      omega
  rw [show normalizeSeq (.vArr bs) = bs from rfl, show normalizeSeq (.vArr ms) = ms from rfl,
    hsg] at h
  exact spyEachLoop_install bs ms obj 0 fin h hnd i hi k (by omega) hread

/-- Witness for C10: three function members `a b c`, two behavior specs;
`c` (index 2, past the behaviors) ends up a spy with no configured
behavior. -/
theorem spyEach_out_of_range_behavior_witness :
    readProp exThreeFnsSpied (jsToString ([Value.vStr "a", Value.vStr "b", Value.vStr "c"].get
      ⟨2, by decide⟩)) = .ok (.vSpy 3 [] none) :=
  spyEach_out_of_range_behavior exThreeFns [.vStr "a", .vStr "b", .vStr "c"]
    [exBehavior, exBehavior] exThreeFnsSpied rfl (by decide) (by decide) 2 (by decide) 3
    (by decide) rfl

/-! Lemmas about the visited-name set and the walk loops. -/

theorem foundLookup_true_of_mem {found : List String} {n : String} (h : n ∈ found) :
    foundLookup found n = true := by
  simp [foundLookup, h]

theorem foundLookup_false_elim {found : List String} {n : String}
    (h : foundLookup found n = false) : n ∉ found ∧ n ∉ objectProtoKeys := by
  simpa [foundLookup] using h

theorem foundLookup_mono_sub {found found2 : List String} {n : String}
    (hsub : ∀ y, y ∈ found → y ∈ found2)
    (h : foundLookup found n = true) : foundLookup found2 n = true := by
  simp only [foundLookup, Bool.or_eq_true, decide_eq_true_eq] at h ⊢
  rcases h with h | h
  · exact Or.inl (hsub n h)
  · exact Or.inr h

theorem forInLoop_nil (visit : JSVisitor) (cur : Value) (found : List String) :
    forInLoop visit cur found [] = ⟨cur, found, [], false⟩ := rfl

theorem forInLoop_cons_found (visit : JSVisitor) (cur : Value) (found : List String)
    (n : String) (rest : List String) (h : foundLookup found n = true) :
    forInLoop visit cur found (n :: rest) = forInLoop visit cur found rest := by
  simp [forInLoop, h]

theorem forInLoop_cons_readerr (visit : JSVisitor) (cur : Value) (found : List String)
    (n : String) (rest : List String) (hf : foundLookup found n = false)
    (hr : readProp cur n = .error ()) :
    forInLoop visit cur found (n :: rest) = ⟨cur, found, [], true⟩ := by
  simp [forInLoop, hf, hr]

theorem forInLoop_cons_visiterr (visit : JSVisitor) (cur : Value) (found : List String)
    (n : String) (rest : List String) {u : Value} (hf : foundLookup found n = false)
    (hr : readProp cur n = .ok u) (hv : visit cur n = .error ()) :
    forInLoop visit cur found (n :: rest) = ⟨cur, n :: found, [(cur, n)], true⟩ := by
  simp [forInLoop, hf, hr, hv]

theorem forInLoop_cons_visit (visit : JSVisitor) (cur : Value) (found : List String)
    (n : String) (rest : List String) {u cur1 : Value} (hf : foundLookup found n = false)
    (hr : readProp cur n = .ok u) (hv : visit cur n = .ok cur1) :
    forInLoop visit cur found (n :: rest) =
      ⟨(forInLoop visit cur1 (n :: found) rest).cur,
       (forInLoop visit cur1 (n :: found) rest).found,
       (cur, n) :: (forInLoop visit cur1 (n :: found) rest).log,
       (forInLoop visit cur1 (n :: found) rest).err⟩ := by
  simp [forInLoop, hf, hr, hv]

theorem propsLoop_nil (visit : JSVisitor) (cur : Value) (found : List String) :
    propsLoop visit cur found [] = ⟨cur, found, [], false⟩ := rfl

theorem propsLoop_cons_readerr (visit : JSVisitor) (cur : Value) (found : List String)
    (n : String) (rest : List String) (hr : readProp cur n = .error ()) :
    propsLoop visit cur found (n :: rest) = ⟨cur, found, [], true⟩ := by
  simp [propsLoop, hr]

theorem propsLoop_cons_guardfail (visit : JSVisitor) (cur : Value) (found : List String)
    (n : String) (rest : List String) {u : Value} (hr : readProp cur n = .ok u)
    (hg : ¬ (n ≠ "prototype" ∧ (!foundLookup found n) = true)) :
    propsLoop visit cur found (n :: rest) = propsLoop visit cur found rest := by
  simp only [propsLoop, hr]
  rw [if_neg hg]

theorem propsLoop_cons_descrnone (visit : JSVisitor) (cur : Value) (found : List String)
    (n : String) (rest : List String) {u : Value} (hr : readProp cur n = .ok u)
    (hg : n ≠ "prototype" ∧ (!foundLookup found n) = true)
    (hd : descrFor cur n = none) :
    propsLoop visit cur found (n :: rest) = ⟨cur, found, [], true⟩ := by
  simp only [propsLoop, hr]
  rw [if_pos hg, hd]

theorem propsLoop_cons_notwritable (visit : JSVisitor) (cur : Value) (found : List String)
    (n : String) (rest : List String) {u : Value} {e : Entry} (hr : readProp cur n = .ok u)
    (hg : n ≠ "prototype" ∧ (!foundLookup found n) = true)
    (hd : descrFor cur n = some e) (hw : entryWritable e = false) :
    propsLoop visit cur found (n :: rest) = propsLoop visit cur found rest := by
  simp only [propsLoop, hr]
  rw [if_pos hg, hd]
  simp [hw]

theorem propsLoop_cons_visiterr (visit : JSVisitor) (cur : Value) (found : List String)
    (n : String) (rest : List String) {u : Value} {e : Entry} (hr : readProp cur n = .ok u)
    (hg : n ≠ "prototype" ∧ (!foundLookup found n) = true)
    (hd : descrFor cur n = some e) (hw : entryWritable e = true)
    (hv : visit cur n = .error ()) :
    propsLoop visit cur found (n :: rest) = ⟨cur, n :: found, [(cur, n)], true⟩ := by
  simp only [propsLoop, hr]
  rw [if_pos hg, hd]
  simp [hw, hv]

theorem propsLoop_cons_visit (visit : JSVisitor) (cur : Value) (found : List String)
    (n : String) (rest : List String) {u cur1 : Value} {e : Entry}
    (hr : readProp cur n = .ok u)
    (hg : n ≠ "prototype" ∧ (!foundLookup found n) = true)
    (hd : descrFor cur n = some e) (hw : entryWritable e = true)
    (hv : visit cur n = .ok cur1) :
    propsLoop visit cur found (n :: rest) =
      ⟨(propsLoop visit cur1 (n :: found) rest).cur,
       (propsLoop visit cur1 (n :: found) rest).found,
       (cur, n) :: (propsLoop visit cur1 (n :: found) rest).log,
       (propsLoop visit cur1 (n :: found) rest).err⟩ := by
  simp only [propsLoop, hr]
  rw [if_pos hg, hd]
  simp [hw, hv]

/-- The three bookkeeping invariants of a loop result: the visited-name
set only grows, every logged name is in the final set and was unseen at
entry, and no name is logged twice. -/
def LoopInv (found : List String) (r : LoopRes) : Prop :=
  (∀ x, x ∈ found → x ∈ r.found) ∧
  (∀ p, p ∈ r.log → p.2 ∈ r.found ∧ foundLookup found p.2 = false) ∧
  (r.log.map Prod.snd).Nodup

theorem loopInv_step {found : List String} {n : String} {r : LoopRes}
    (hf : foundLookup found n = false) (hinv : LoopInv (n :: found) r)
    (hcur : Value) :
    LoopInv found ⟨r.cur, r.found, (hcur, n) :: r.log, r.err⟩ := by
  obtain ⟨hmono, hlog, hnd⟩ := hinv
  refine ⟨?_, ?_, ?_⟩
  · intro x hx
    exact hmono x (List.mem_cons_of_mem _ hx)
  · intro p hp
    rcases List.mem_cons.mp hp with rfl | hp
    · exact ⟨hmono n (List.mem_cons_self _ _), hf⟩
    · refine ⟨(hlog p hp).1, ?_⟩
      have h2 := (hlog p hp).2
      cases hfb : foundLookup found p.2
      · rfl
      · exfalso
        have : foundLookup (n :: found) p.2 = true :=
          foundLookup_mono_sub (fun y hy => List.mem_cons_of_mem _ hy) hfb
        rw [this] at h2
        exact Bool.noConfusion h2
  · rw [List.map_cons]
    refine List.nodup_cons.mpr ⟨?_, hnd⟩
    intro hmem
    obtain ⟨p, hp, hp2⟩ := List.mem_map.mp hmem
    have h2 := (hlog p hp).2
    rw [hp2] at h2
    rw [foundLookup_true_of_mem (List.mem_cons_self n found)] at h2
    exact Bool.noConfusion h2

theorem forInLoop_inv (visit : JSVisitor) :
    ∀ (names : List String) (cur : Value) (found : List String),
      LoopInv found (forInLoop visit cur found names) := by
  intro names
  induction names with
  | nil =>
    intro cur found
    exact ⟨fun x hx => hx, fun p hp => absurd hp (by simp [forInLoop_nil]), by
      simp [forInLoop_nil]⟩
  | cons n rest ih =>
    intro cur found
    cases hf : foundLookup found n with
    | true =>
      rw [forInLoop_cons_found visit cur found n rest hf]
      exact ih cur found
    | false =>
      cases hr : readProp cur n with
      | error e =>
        rw [forInLoop_cons_readerr visit cur found n rest hf hr]
        exact ⟨fun x hx => hx, fun p hp => absurd hp (by simp), by simp⟩
      | ok u =>
        cases hv : visit cur n with
        | error e =>
          rw [forInLoop_cons_visiterr visit cur found n rest hf hr hv]
          refine ⟨fun x hx => List.mem_cons_of_mem _ hx, ?_, by simp⟩
          intro p hp
          rcases List.mem_cons.mp hp with rfl | hp
          · exact ⟨List.mem_cons_self _ _, hf⟩
          · exact absurd hp (by simp)
        | ok cur1 =>
          rw [forInLoop_cons_visit visit cur found n rest hf hr hv]
          exact loopInv_step hf (ih cur1 (n :: found)) cur

theorem propsLoop_inv (visit : JSVisitor) :
    ∀ (names : List String) (cur : Value) (found : List String),
      LoopInv found (propsLoop visit cur found names) := by
  intro names
  induction names with
  | nil =>
    intro cur found
    exact ⟨fun x hx => hx, fun p hp => absurd hp (by simp [propsLoop_nil]), by
      simp [propsLoop_nil]⟩
  | cons n rest ih =>
    intro cur found
    cases hr : readProp cur n with
    | error e =>
      rw [propsLoop_cons_readerr visit cur found n rest hr]
      exact ⟨fun x hx => hx, fun p hp => absurd hp (by simp), by simp⟩
    | ok u =>
      by_cases hg : n ≠ "prototype" ∧ (!foundLookup found n) = true
      · cases hd : descrFor cur n with
        | none =>
          rw [propsLoop_cons_descrnone visit cur found n rest hr hg hd]
          exact ⟨fun x hx => hx, fun p hp => absurd hp (by simp), by simp⟩
        | some e =>
          have hf : foundLookup found n = false := by
            have h2 := hg.2
            cases hfb : foundLookup found n
            · rfl
            · rw [hfb] at h2; exact Bool.noConfusion h2
          cases hw : entryWritable e with
          | false =>
            rw [propsLoop_cons_notwritable visit cur found n rest hr hg hd hw]
            exact ih cur found
          | true =>
            cases hv : visit cur n with
            | error e2 =>
              rw [propsLoop_cons_visiterr visit cur found n rest hr hg hd hw hv]
              refine ⟨fun x hx => List.mem_cons_of_mem _ hx, ?_, by simp⟩
              intro p hp
              rcases List.mem_cons.mp hp with rfl | hp
              · exact ⟨List.mem_cons_self _ _, hf⟩
              · exact absurd hp (by simp)
            | ok cur1 =>
              rw [propsLoop_cons_visit visit cur found n rest hr hg hd hw hv]
              exact loopInv_step hf (ih cur1 (n :: found)) cur
      · rw [propsLoop_cons_guardfail visit cur found n rest hr hg]
        exact ih cur found

theorem loopInv_append {found : List String} {r1 r2 : LoopRes}
    (h1 : LoopInv found r1) (h2 : LoopInv r1.found r2) :
    LoopInv found ⟨r2.cur, r2.found, r1.log ++ r2.log, r2.err⟩ := by
  obtain ⟨m1, l1, n1⟩ := h1
  obtain ⟨m2, l2, n2⟩ := h2
  refine ⟨fun x hx => m2 x (m1 x hx), ?_, ?_⟩
  · intro p hp
    rcases List.mem_append.mp hp with hp | hp
    · refine ⟨m2 p.2 (l1 p hp).1, (l1 p hp).2⟩
    · refine ⟨(l2 p hp).1, ?_⟩
      have hb := (l2 p hp).2
      cases hfb : foundLookup found p.2
      · rfl
      · exfalso
        rw [foundLookup_mono_sub m1 hfb] at hb
        exact Bool.noConfusion hb
  · rw [List.map_append]
    refine List.Nodup.append n1 n2 ?_
    intro x hx1 hx2
    obtain ⟨p, hp, hp2⟩ := List.mem_map.mp hx1
    obtain ⟨q, hq, hq2⟩ := List.mem_map.mp hx2
    have hb := (l2 q hq).2
    rw [hq2, ← hp2] at hb
    rw [foundLookup_true_of_mem (l1 p hp).1] at hb
    exact Bool.noConfusion hb

theorem walkLevel_inv (visit : JSVisitor) (cur : Value) (found : List String) :
    LoopInv found (walkLevel visit cur found) := by
  unfold walkLevel
  cases he : (forInLoop visit cur found (forInNames cur)).err
  · simp only [he, Bool.false_eq_true, if_false]
    cases hp : readProp (forInLoop visit cur found (forInNames cur)).cur "prototype" with
    | error e =>
      have h1 := forInLoop_inv visit (forInNames cur) cur found
      exact ⟨h1.1, fun p hp2 => (h1.2.1 p hp2), h1.2.2⟩
    | ok protoV =>
      exact loopInv_append (forInLoop_inv visit (forInNames cur) cur found)
        (propsLoop_inv visit _ _ _)
  · simp only [he, if_true]
    exact forInLoop_inv visit (forInNames cur) cur found

theorem walk_inv (visit : JSVisitor) :
    ∀ (fuel : Nat) (cur : Value) (found : List String),
      (∀ x, x ∈ found → x ∈ (forEachWritableProperties visit fuel cur found).found) ∧
      (∀ p, p ∈ (forEachWritableProperties visit fuel cur found).log →
        p.2 ∈ (forEachWritableProperties visit fuel cur found).found ∧
        foundLookup found p.2 = false) ∧
      (((forEachWritableProperties visit fuel cur found).log.map Prod.snd)).Nodup := by
  intro fuel
  induction fuel with
  | zero =>
    intro cur found
    cases ht : cur.truthy with
    | true =>
      simp only [forEachWritableProperties, ht, if_true]
      exact ⟨fun x hx => hx, fun p hp => absurd hp (by simp), by simp⟩
    | false =>
      simp only [forEachWritableProperties, ht, Bool.false_eq_true, if_false]
      exact ⟨fun x hx => hx, fun p hp => absurd hp (by simp), by simp⟩
  | succ fuel ih =>
    intro cur found
    cases ht : cur.truthy with
    | false =>
      simp only [forEachWritableProperties, ht, Bool.not_false, if_true]
      exact ⟨fun x hx => hx, fun p hp => absurd hp (by simp), by simp⟩
    | true =>
      simp only [forEachWritableProperties, ht, Bool.not_true, Bool.false_eq_true, if_false]
      have hlv := walkLevel_inv visit cur found
      cases herr : (walkLevel visit cur found).err
      · simp only [herr, Bool.false_eq_true, if_false]
        cases hp2 : readProp (walkLevel visit cur found).cur "prototype" with
        | error e =>
          exact ⟨hlv.1, hlv.2.1, hlv.2.2⟩
        | ok pv2 =>
          cases htr : pv2.truthy with
          | false =>
            simp only [htr, Bool.false_eq_true, if_false]
            exact ⟨hlv.1, hlv.2.1, hlv.2.2⟩
          | true =>
            simp only [htr, if_true]
            have hsub := ih pv2 (walkLevel visit cur found).found
            refine ⟨fun x hx => hsub.1 x (hlv.1 x hx), ?_, ?_⟩
            · intro p hp
              rcases List.mem_append.mp hp with hp | hp
              · exact ⟨hsub.1 p.2 (hlv.2.1 p hp).1, (hlv.2.1 p hp).2⟩
              · refine ⟨(hsub.2.1 p hp).1, ?_⟩
                have hb := (hsub.2.1 p hp).2
                cases hfb : foundLookup found p.2
                · rfl
                · exfalso
                  rw [foundLookup_mono_sub hlv.1 hfb] at hb
                  exact Bool.noConfusion hb
            · rw [List.map_append]
              refine List.Nodup.append hlv.2.2 (hsub.2.2) ?_
              intro x hx1 hx2
              obtain ⟨p, hp, hp2⟩ := List.mem_map.mp hx1
              obtain ⟨q, hq, hq2⟩ := List.mem_map.mp hx2
              have hb := (hsub.2.1 q hq).2
              rw [hq2, ← hp2] at hb
              rw [foundLookup_true_of_mem (hlv.2.1 p hp).1] at hb
              exact Bool.noConfusion hb
      · simp only [herr, if_true]
        exact ⟨hlv.1, hlv.2.1, hlv.2.2⟩

/-- C4: within one walk invocation, for every visitor, fuel and target,
the visitor is invoked at most once per distinct property name: the name
projection of the walk's visit log has no duplicates, even when the same
name is defined at multiple levels of the traversal chain. -/
theorem forEachWritableProperties_at_most_once_per_name :
    ∀ (visit : JSVisitor) (fuel : Nat) (obj : Value),
      ((forEachWritableProperties visit fuel obj []).log.map Prod.snd).Nodup :=
  fun visit fuel obj => (walk_inv visit fuel obj []).2.2

/-- C9: the ancestor fold-in (source lines 189-193) never adds the name
`'constructor'`: if `'constructor'` is among the folded-in props it was
already among the collected props, so `'constructor'` is never presented
to the visitor through the fold-in path. -/
theorem foldInNames_excludes_constructor :
    ∀ (props anc : List String),
      "constructor" ∈ foldInNames props anc → "constructor" ∈ props := by
  intro props anc
  induction anc generalizing props with
  | nil => exact fun h => h
  | cons q anc ih =>
    intro h
    rw [show foldInNames props (q :: anc)
        = foldInNames (if q ≠ "constructor" ∧ q ∉ props then props ++ [q] else props) anc
        from rfl] at h
    by_cases hq : q ≠ "constructor" ∧ q ∉ props
    · rw [if_pos hq] at h
      rcases List.mem_append.mp (ih _ h) with h3 | h3
      · exact h3
      · exfalso
        simp at h3
        exact hq.1 h3.symm
    · rw [if_neg hq] at h
      exact ih _ h

/-- Witness for C9: with `'constructor'` already collected and an
ancestor contributing `'a'`, the hypothesis holds and the conclusion
places `'constructor'` among the previously collected props. -/
theorem foldInNames_excludes_constructor_witness :
    "constructor" ∈ ["constructor"] :=
  foldInNames_excludes_constructor ["constructor"] ["a"] (by decide)

/-! Characterization of the pure observation walk, for the non-writable
property claim. -/

theorem getOwnEntry_unique {own : List Entry} {n : String} {e2 : Entry}
    (hnd : (own.map (fun x => x.1)).Nodup) (hm : e2 ∈ own) (hn : e2.1 = n) :
    getOwnEntry own n = some e2 := by
  induction own with
  | nil => exact absurd hm (List.not_mem_nil e2)
  | cons a rest ih =>
    rw [List.map_cons, List.nodup_cons] at hnd
    rcases List.mem_cons.mp hm with rfl | hm
    · simp [getOwnEntry, hn]
    · have ha : a.1 ≠ n := by
        intro he
        exact hnd.1 (he.symm ▸ hn ▸ List.mem_map_of_mem (fun x => x.1) hm)
      simp [getOwnEntry, ha]
      exact ih hnd.2 hm

theorem forInAux_not_blocked :
    ∀ (v : Value) (blocked : List String) (n : String), n ∈ forInAux v blocked → n ∉ blocked
  | .vObj own (some p), blocked, n => by
    intro h hb
    rw [show forInAux (.vObj own (some p)) blocked
        = (enumOwnNames own).filter (fun x => decide (x ∉ blocked))
          ++ forInAux p (blocked ++ own.map (fun e => e.1)) from rfl] at h
    rcases List.mem_append.mp h with h | h
    · have := (List.mem_filter.mp h).2
      simp at this
      exact this hb
    · exact forInAux_not_blocked p _ n h (List.mem_append.mpr (Or.inl hb))
  | .vObj own none, blocked, n => by
    intro h hb
    rw [show forInAux (.vObj own none) blocked
        = (enumOwnNames own).filter (fun x => decide (x ∉ blocked)) from rfl] at h
    have := (List.mem_filter.mp h).2
    simp at this
    exact this hb
  | .vUndefined, _, n => fun h => absurd h (List.not_mem_nil n)
  | .vNull, _, n => fun h => absurd h (List.not_mem_nil n)
  | .vBool _, _, n => fun h => absurd h (List.not_mem_nil n)
  | .vNum _, _, n => fun h => absurd h (List.not_mem_nil n)
  | .vStr _, _, n => fun h => absurd h (List.not_mem_nil n)
  | .vFunc _, _, n => fun h => absurd h (List.not_mem_nil n)
  | .vSpy _ _ _, _, n => fun h => absurd h (List.not_mem_nil n)
  | .vArr _, _, n => fun h => absurd h (List.not_mem_nil n)

theorem forIn_own_entry_enum {own : List Entry} {ip : Option Value} {n : String} {e : Entry}
    (hown : getOwnEntry own n = some e) (hnd : ((own.map (fun x => x.1)) : List String).Nodup)
    (h : n ∈ forInNames (.vObj own ip)) : entryEnum e = true := by
  have hnmem : n ∈ own.map (fun x => x.1) :=
    (getOwnEntry_name hown) ▸ List.mem_map_of_mem (fun x => x.1) (getOwnEntry_mem hown)
  have hof : ∀ hmem : n ∈ enumOwnNames own, entryEnum e = true := by
    intro hmem
    obtain ⟨e2, he2mem, he2name⟩ := List.mem_map.mp hmem
    have he2own := (List.mem_filter.mp he2mem).1
    have he2enum := (List.mem_filter.mp he2mem).2
    have := getOwnEntry_unique hnd he2own he2name
    rw [hown] at this
    rw [Option.some.inj this]
    exact he2enum
  unfold forInNames at h
  cases ip with
  | some p =>
    rw [show forInAux (.vObj own (some p)) []
        = (enumOwnNames own).filter (fun x => decide (x ∉ ([] : List String)))
          ++ forInAux p ([] ++ own.map (fun e => e.1)) from rfl] at h
    rcases List.mem_append.mp h with h | h
    · exact hof (List.mem_filter.mp h).1
    · exact absurd (List.mem_append.mpr (Or.inr hnmem)) (forInAux_not_blocked p _ n h)
  | none =>
    rw [show forInAux (.vObj own none) []
        = (enumOwnNames own).filter (fun x => decide (x ∉ ([] : List String))) from rfl] at h
    exact hof (List.mem_filter.mp h).1

theorem forInLoop_pure :
    ∀ (names : List String) (cur : Value) (found : List String),
      (forInLoop pureVisitor cur found names).cur = cur ∧
      ∀ p ∈ (forInLoop pureVisitor cur found names).log,
        p.1 = cur ∧ p.2 ∈ names ∧ ∃ v, readProp cur p.2 = .ok v := by
  intro names
  induction names with
  | nil =>
    intro cur found
    exact ⟨rfl, by simp [forInLoop_nil]⟩
  | cons n rest ih =>
    intro cur found
    cases hf : foundLookup found n with
    | true =>
      rw [forInLoop_cons_found _ _ _ _ _ hf]
      obtain ⟨hc, hl⟩ := ih cur found
      exact ⟨hc, fun p hp =>
        ⟨(hl p hp).1, List.mem_cons_of_mem _ (hl p hp).2.1, (hl p hp).2.2⟩⟩
    | false =>
      cases hr : readProp cur n with
      | error e =>
        rw [forInLoop_cons_readerr _ _ _ _ _ hf hr]
        exact ⟨rfl, by simp⟩
      | ok u =>
        have hv : pureVisitor cur n = .ok cur := rfl
        rw [forInLoop_cons_visit _ _ _ _ _ hf hr hv]
        obtain ⟨hc, hl⟩ := ih cur (n :: found)
        refine ⟨hc, ?_⟩
        intro p hp
        rcases List.mem_cons.mp hp with rfl | hp
        · exact ⟨rfl, List.mem_cons_self _ _, u, hr⟩
        · exact ⟨(hl p hp).1, List.mem_cons_of_mem _ (hl p hp).2.1, (hl p hp).2.2⟩

theorem propsLoop_pure :
    ∀ (names : List String) (cur : Value) (found : List String),
      (propsLoop pureVisitor cur found names).cur = cur ∧
      ∀ p ∈ (propsLoop pureVisitor cur found names).log,
        p.1 = cur ∧ (∃ v, readProp cur p.2 = .ok v) ∧
          ∃ e, descrFor cur p.2 = some e ∧ entryWritable e = true := by
  intro names
  induction names with
  | nil =>
    intro cur found
    exact ⟨rfl, by simp [propsLoop_nil]⟩
  | cons n rest ih =>
    intro cur found
    cases hr : readProp cur n with
    | error e =>
      rw [propsLoop_cons_readerr _ _ _ _ _ hr]
      exact ⟨rfl, by simp⟩
    | ok u =>
      by_cases hg : n ≠ "prototype" ∧ (!foundLookup found n) = true
      · cases hd : descrFor cur n with
        | none =>
          rw [propsLoop_cons_descrnone _ _ _ _ _ hr hg hd]
          exact ⟨rfl, by simp⟩
        | some e =>
          cases hw : entryWritable e with
          | false =>
            rw [propsLoop_cons_notwritable _ _ _ _ _ hr hg hd hw]
            exact ih cur found
          | true =>
            have hv : pureVisitor cur n = .ok cur := rfl
            rw [propsLoop_cons_visit _ _ _ _ _ hr hg hd hw hv]
            obtain ⟨hc, hl⟩ := ih cur (n :: found)
            refine ⟨hc, ?_⟩
            intro p hp
            rcases List.mem_cons.mp hp with rfl | hp
            · exact ⟨rfl, ⟨u, hr⟩, e, hd, hw⟩
            · exact hl p hp
      · rw [propsLoop_cons_guardfail _ _ _ _ _ hr hg]
        exact ih cur found

theorem walkLevel_pure (cur : Value) (found : List String) :
    ∀ p ∈ (walkLevel pureVisitor cur found).log,
      p.1 = cur ∧ ((p.2 ∈ forInNames cur ∧ ∃ v, readProp cur p.2 = .ok v) ∨
        ((∃ v, readProp cur p.2 = .ok v) ∧
          ∃ e, descrFor cur p.2 = some e ∧ entryWritable e = true)) := by
  unfold walkLevel
  obtain ⟨hc1, hl1⟩ := forInLoop_pure (forInNames cur) cur found
  cases herr : (forInLoop pureVisitor cur found (forInNames cur)).err
  · simp only [herr, Bool.false_eq_true, if_false]
    cases hp2 : readProp (forInLoop pureVisitor cur found (forInNames cur)).cur "prototype" with
    | error e =>
      intro p hp
      exact ⟨(hl1 p hp).1, Or.inl ⟨(hl1 p hp).2.1, (hl1 p hp).2.2⟩⟩
    | ok protoV =>
      intro p hp
      rcases List.mem_append.mp hp with hp | hp
      · exact ⟨(hl1 p hp).1, Or.inl ⟨(hl1 p hp).2.1, (hl1 p hp).2.2⟩⟩
      · obtain ⟨hc2, hl2⟩ := propsLoop_pure _
          (forInLoop pureVisitor cur found (forInNames cur)).cur
          (forInLoop pureVisitor cur found (forInNames cur)).found
        have h3 := hl2 p hp
        rw [hc1] at h3
        exact ⟨h3.1, Or.inr ⟨h3.2.1, h3.2.2⟩⟩
  · simp only [herr, if_true]
    intro p hp
    exact ⟨(hl1 p hp).1, Or.inl ⟨(hl1 p hp).2.1, (hl1 p hp).2.2⟩⟩

theorem walk_pure :
    ∀ (fuel : Nat) (cur : Value) (found : List String),
      ∀ p ∈ (forEachWritableProperties pureVisitor fuel cur found).log,
        (p.2 ∈ forInNames p.1 ∧ ∃ v, readProp p.1 p.2 = .ok v) ∨
        ((∃ v, readProp p.1 p.2 = .ok v) ∧
          ∃ e, descrFor p.1 p.2 = some e ∧ entryWritable e = true) := by
  intro fuel
  induction fuel with
  | zero =>
    intro cur found p hp
    cases ht : cur.truthy <;> simp [forEachWritableProperties, ht] at hp
  | succ fuel ih =>
    intro cur found p hp
    cases ht : cur.truthy with
    | false =>
      simp only [forEachWritableProperties, ht, Bool.not_false, if_true] at hp
      exact absurd hp (by simp)
    | true =>
      simp only [forEachWritableProperties, ht, Bool.not_true, Bool.false_eq_true,
        if_false] at hp
      have hlv := walkLevel_pure cur found
      cases herr : (walkLevel pureVisitor cur found).err
      · rw [herr] at hp
        simp only [Bool.false_eq_true, if_false] at hp
        cases hp2 : readProp (walkLevel pureVisitor cur found).cur "prototype" with
        | error e =>
          rw [hp2] at hp
          simp only [] at hp
          obtain ⟨h1, h2⟩ := hlv p hp
          rw [← h1] at h2
          exact h2
        | ok pv2 =>
          rw [hp2] at hp
          simp only [] at hp
          cases htr : pv2.truthy with
          | false =>
            rw [htr] at hp
            simp only [Bool.false_eq_true, if_false] at hp
            obtain ⟨h1, h2⟩ := hlv p hp
            rw [← h1] at h2
            exact h2
          | true =>
            rw [htr] at hp
            simp only [if_true] at hp
            rcases List.mem_append.mp hp with hp | hp
            · obtain ⟨h1, h2⟩ := hlv p hp
              rw [← h1] at h2
              exact h2
            · exact ih pv2 (walkLevel pureVisitor cur found).found p hp
      · rw [herr] at hp
        simp only [if_true] at hp
        obtain ⟨h1, h2⟩ := hlv p hp
        rw [← h1] at h2
        exact h2

/-- C3 counterexample: an object with one own property `x` that is
enumerable but non-writable; the pure observation walk passes `x` to the
visitor (through the `for..in` phase, which applies no writability
check), so a non-writable property defined on the target is visited. -/
theorem nonwritable_enumerable_is_visited :
    objGetOwn exNonWritable "x" = some ("x", .vNum 1, false, true, false) ∧
    entryWritable ("x", Value.vNum 1, false, true, false) = false ∧
    (walkVisits 2 exNonWritable).log = [(exNonWritable, "x")] :=
  ⟨rfl, rfl, rfl⟩

/-- C3 (amended): a non-writable property is never passed to the visitor
through the descriptor-checked `props` path, and in particular an own
property of a visited level that is both non-enumerable and non-writable
is never visited at that level (given distinct own names): every visited
name that is an own property of its level is enumerable or writable.
However an enumerable non-writable own property IS visited through the
`for..in` phase, and a name skipped by the writability check is not
marked visited, so the skip is not permanent. -/
theorem walk_visited_own_enumerable_or_writable :
    ∀ (fuel : Nat) (obj L : Value) (n : String) (e : Entry),
      (L, n) ∈ (walkVisits fuel obj).log →
      objGetOwn L n = some e →
      (ownNamesOf L).Nodup →
      entryEnum e = true ∨ entryWritable e = true := by
  intro fuel obj L n e hmem hown hnd
  rcases walk_pure fuel obj [] (L, n) hmem with ⟨hf, _⟩ | ⟨_, d, hd, hw⟩
  · left
    obtain ⟨own, ip, rfl⟩ : ∃ own ip, L = .vObj own ip := by
      cases L <;> simp [objGetOwn] at hown ⊢
    simp only [objGetOwn] at hown
    simp only [ownNamesOf] at hnd
    exact forIn_own_entry_enum hown hnd hf
  · right
    obtain ⟨own, ip, rfl⟩ : ∃ own ip, L = .vObj own ip := by
      cases L <;> simp [objGetOwn] at hown ⊢
    unfold descrFor at hd
    simp only [objGetOwn] at hown
    rw [show objGetOwn (.vObj own ip) n = getOwnEntry own n from rfl, hown] at hd
    simp only [Option.some.injEq] at hd
    rw [← hd] at hw
    exact hw

/-- Witness for C3's amended theorem: the enumerable non-writable `x` of
the counterexample object is visited, its own entry exists with distinct
own names, and the conclusion holds through enumerability. -/
theorem walk_visited_own_enumerable_or_writable_witness :
    entryEnum ("x", Value.vNum 1, false, true, false) = true ∨
    entryWritable ("x", Value.vNum 1, false, true, false) = true :=
  walk_visited_own_enumerable_or_writable 2 exNonWritable exNonWritable "x"
    ("x", .vNum 1, false, true, false)
    (by exact List.mem_singleton.mpr rfl) rfl (by decide)

/-! Preservation and installation lemmas for `spyAllExcept`. -/

theorem objGetOwn_writeBackProto {c f : Value} {n : String} (h : n ≠ "prototype") :
    objGetOwn (writeBackProto c f) n = objGetOwn c n := by
  cases c with
  | vObj own ip =>
    unfold writeBackProto
    cases hs : (getOwnEntry own "prototype").isSome with
    | true =>
      simp only [hs, if_true]
      simp [objGetOwn, getOwnEntry_setOwnEntryValue_ne f h]
    | false =>
      simp only [hs, Bool.false_eq_true, if_false]
  | _ => rfl

theorem spySkip_of_mem {skip : List String} {foo : String} (h : foo ∈ skip) :
    spySkip skip foo = true := by
  simp [spySkip, mtsLookup, h]

theorem spyVisitor_preserve_ne {skip : List String} {b : Value} {foo : String} :
    ∀ (c : Value) (m : String) (c' : Value), m ≠ foo →
      spyVisitor skip b c m = .ok c' → objGetOwn c' foo = objGetOwn c foo := by
  intro c m c' hm h
  unfold spyVisitor at h
  cases hr : readProp c m with
  | error e => simp only [hr] at h; exact Except.noConfusion h
  | ok mts =>
    simp only [hr] at h
    by_cases hfn : mts.typeofFunction = true
    · rw [if_pos hfn] at h
      by_cases hsk : spySkip skip m = true
      · rw [if_pos hsk] at h
        rw [← Except.ok.inj h]
      · rw [if_neg hsk] at h
        cases hstep : spyIf c m b with
        | error e => simp only [hstep] at h; exact Except.noConfusion h
        | ok pr =>
          obtain ⟨s, c1⟩ := pr
          simp only [hstep] at h
          rw [← Except.ok.inj h]
          exact spyIf_objGetOwn_ne hstep (Ne.symm hm)
    · rw [if_neg hfn] at h
      rw [← Except.ok.inj h]

theorem spyVisitor_preserve_skip {skip : List String} {b : Value} {foo : String}
    (hskip : spySkip skip foo = true) :
    ∀ (c : Value) (m : String) (c' : Value),
      spyVisitor skip b c m = .ok c' → objGetOwn c' foo = objGetOwn c foo := by
  intro c m c' h
  by_cases hm : m = foo
  · subst hm
    unfold spyVisitor at h
    cases hr : readProp c m with
    | error e => simp only [hr] at h; exact Except.noConfusion h
    | ok mts =>
      simp only [hr] at h
      by_cases hfn : mts.typeofFunction = true
      · rw [if_pos hfn, if_pos hskip] at h
        rw [← Except.ok.inj h]
      · rw [if_neg hfn] at h
        rw [← Except.ok.inj h]
  · exact spyVisitor_preserve_ne c m c' hm h

theorem forInLoop_preserve (visit : JSVisitor) (foo : String)
    (hv : ∀ c m c', visit c m = .ok c' → objGetOwn c' foo = objGetOwn c foo) :
    ∀ (names : List String) (cur : Value) (found : List String),
      objGetOwn (forInLoop visit cur found names).cur foo = objGetOwn cur foo := by
  intro names
  induction names with
  | nil => intro cur found; rfl
  | cons n rest ih =>
    intro cur found
    cases hf : foundLookup found n with
    | true =>
      rw [forInLoop_cons_found _ _ _ _ _ hf]
      exact ih cur found
    | false =>
      cases hr : readProp cur n with
      | error e =>
        rw [forInLoop_cons_readerr _ _ _ _ _ hf hr]
      | ok u =>
        cases hvs : visit cur n with
        | error e =>
          rw [forInLoop_cons_visiterr _ _ _ _ _ hf hr hvs]
        | ok cur1 =>
          rw [forInLoop_cons_visit _ _ _ _ _ hf hr hvs]
          exact (ih cur1 (n :: found)).trans (hv cur n cur1 hvs)

theorem propsLoop_preserve (visit : JSVisitor) (foo : String)
    (hv : ∀ c m c', visit c m = .ok c' → objGetOwn c' foo = objGetOwn c foo) :
    ∀ (names : List String) (cur : Value) (found : List String),
      objGetOwn (propsLoop visit cur found names).cur foo = objGetOwn cur foo := by
  intro names
  induction names with
  | nil => intro cur found; rfl
  | cons n rest ih =>
    intro cur found
    cases hr : readProp cur n with
    | error e =>
      rw [propsLoop_cons_readerr _ _ _ _ _ hr]
    | ok u =>
      by_cases hg : n ≠ "prototype" ∧ (!foundLookup found n) = true
      · cases hd : descrFor cur n with
        | none =>
          rw [propsLoop_cons_descrnone _ _ _ _ _ hr hg hd]
        | some e =>
          cases hw : entryWritable e with
          | false =>
            rw [propsLoop_cons_notwritable _ _ _ _ _ hr hg hd hw]
            exact ih cur found
          | true =>
            cases hvs : visit cur n with
            | error e2 =>
              rw [propsLoop_cons_visiterr _ _ _ _ _ hr hg hd hw hvs]
            | ok cur1 =>
              rw [propsLoop_cons_visit _ _ _ _ _ hr hg hd hw hvs]
              exact (ih cur1 (n :: found)).trans (hv cur n cur1 hvs)
      · rw [propsLoop_cons_guardfail _ _ _ _ _ hr hg]
        exact ih cur found

theorem walkLevel_preserve (visit : JSVisitor) (foo : String)
    (hv : ∀ c m c', visit c m = .ok c' → objGetOwn c' foo = objGetOwn c foo)
    (cur : Value) (found : List String) :
    objGetOwn (walkLevel visit cur found).cur foo = objGetOwn cur foo := by
  unfold walkLevel
  cases herr : (forInLoop visit cur found (forInNames cur)).err
  · simp only [herr, Bool.false_eq_true, if_false]
    cases hp2 : readProp (forInLoop visit cur found (forInNames cur)).cur "prototype" with
    | error e =>
      exact forInLoop_preserve visit foo hv (forInNames cur) cur found
    | ok protoV =>
      exact (propsLoop_preserve visit foo hv _ _ _).trans
        (forInLoop_preserve visit foo hv (forInNames cur) cur found)
  · simp only [herr, if_true]
    exact forInLoop_preserve visit foo hv (forInNames cur) cur found

theorem walk_preserve (visit : JSVisitor) (foo : String)
    (hv : ∀ c m c', visit c m = .ok c' → objGetOwn c' foo = objGetOwn c foo)
    (hfoo : foo ≠ "prototype") :
    ∀ (fuel : Nat) (cur : Value) (found : List String) (fin : Value),
      (forEachWritableProperties visit fuel cur found).status = .done fin →
      objGetOwn fin foo = objGetOwn cur foo := by
  intro fuel cur found fin h
  cases fuel with
  | zero =>
    cases ht : cur.truthy with
    | true =>
      simp only [forEachWritableProperties, ht, if_true] at h
      exact WStatus.noConfusion h
    | false =>
      simp only [forEachWritableProperties, ht, Bool.false_eq_true, if_false] at h
      rw [← WStatus.done.inj h]
  | succ fuel =>
    cases ht : cur.truthy with
    | false =>
      simp only [forEachWritableProperties, ht, Bool.not_false, if_true] at h
      rw [← WStatus.done.inj h]
    | true =>
      simp only [forEachWritableProperties, ht, Bool.not_true, Bool.false_eq_true,
        if_false] at h
      cases herr : (walkLevel visit cur found).err
      · rw [herr] at h
        simp only [Bool.false_eq_true, if_false] at h
        cases hp2 : readProp (walkLevel visit cur found).cur "prototype" with
        | error e =>
          rw [hp2] at h
          simp only [] at h
          exact WStatus.noConfusion h
        | ok pv2 =>
          rw [hp2] at h
          simp only [] at h
          cases htr : pv2.truthy with
          | false =>
            rw [htr] at h
            simp only [Bool.false_eq_true, if_false] at h
            rw [← WStatus.done.inj h]
            exact walkLevel_preserve visit foo hv cur found
          | true =>
            rw [htr] at h
            simp only [if_true] at h
            cases hsub : (forEachWritableProperties visit fuel pv2
                (walkLevel visit cur found).found).status with
            | done subfin =>
              rw [hsub] at h
              simp only [] at h
              rw [← WStatus.done.inj h, objGetOwn_writeBackProto hfoo]
              exact walkLevel_preserve visit foo hv cur found
            | errored =>
              rw [hsub] at h
              exact WStatus.noConfusion h
            | fuelOut =>
              rw [hsub] at h
              exact WStatus.noConfusion h
      · rw [herr] at h
        simp only [if_true] at h
        exact WStatus.noConfusion h

theorem foundLookup_cons_false {found : List String} {n nm : String}
    (h : foundLookup found nm = false) (hne : nm ≠ n) :
    foundLookup (n :: found) nm = false := by
  obtain ⟨h1, h2⟩ := foundLookup_false_elim h
  simp [foundLookup, h1, h2, hne]

theorem forInLoop_preserve_found (visit : JSVisitor) (foo : String)
    (hv : ∀ c m c', m ≠ foo → visit c m = .ok c' → objGetOwn c' foo = objGetOwn c foo) :
    ∀ (names : List String) (cur : Value) (found : List String), foo ∈ found →
      objGetOwn (forInLoop visit cur found names).cur foo = objGetOwn cur foo ∧
      foo ∈ (forInLoop visit cur found names).found := by
  intro names
  induction names with
  | nil => intro cur found hfoo; exact ⟨rfl, hfoo⟩
  | cons n rest ih =>
    intro cur found hfoo
    cases hf : foundLookup found n with
    | true =>
      rw [forInLoop_cons_found _ _ _ _ _ hf]
      exact ih cur found hfoo
    | false =>
      have hne : n ≠ foo := by
        intro he
        exact (foundLookup_false_elim hf).1 (he ▸ hfoo)
      cases hr : readProp cur n with
      | error e =>
        rw [forInLoop_cons_readerr _ _ _ _ _ hf hr]
        exact ⟨rfl, hfoo⟩
      | ok u =>
        cases hvs : visit cur n with
        | error e =>
          rw [forInLoop_cons_visiterr _ _ _ _ _ hf hr hvs]
          exact ⟨rfl, List.mem_cons_of_mem _ hfoo⟩
        | ok cur1 =>
          rw [forInLoop_cons_visit _ _ _ _ _ hf hr hvs]
          obtain ⟨hp, hm⟩ := ih cur1 (n :: found) (List.mem_cons_of_mem _ hfoo)
          exact ⟨hp.trans (hv cur n cur1 hne hvs), hm⟩

theorem propsLoop_preserve_found (visit : JSVisitor) (foo : String)
    (hv : ∀ c m c', m ≠ foo → visit c m = .ok c' → objGetOwn c' foo = objGetOwn c foo) :
    ∀ (names : List String) (cur : Value) (found : List String), foo ∈ found →
      objGetOwn (propsLoop visit cur found names).cur foo = objGetOwn cur foo ∧
      foo ∈ (propsLoop visit cur found names).found := by
  intro names
  induction names with
  | nil => intro cur found hfoo; exact ⟨rfl, hfoo⟩
  | cons n rest ih =>
    intro cur found hfoo
    cases hr : readProp cur n with
    | error e =>
      rw [propsLoop_cons_readerr _ _ _ _ _ hr]
      exact ⟨rfl, hfoo⟩
    | ok u =>
      by_cases hg : n ≠ "prototype" ∧ (!foundLookup found n) = true
      · have hf : foundLookup found n = false := by
          have h2 := hg.2
          cases hfb : foundLookup found n
          · rfl
          · rw [hfb] at h2; exact Bool.noConfusion h2
        have hne : n ≠ foo := by
          intro he
          exact (foundLookup_false_elim hf).1 (he ▸ hfoo)
        cases hd : descrFor cur n with
        | none =>
          rw [propsLoop_cons_descrnone _ _ _ _ _ hr hg hd]
          exact ⟨rfl, hfoo⟩
        | some e =>
          cases hw : entryWritable e with
          | false =>
            rw [propsLoop_cons_notwritable _ _ _ _ _ hr hg hd hw]
            exact ih cur found hfoo
          | true =>
            cases hvs : visit cur n with
            | error e2 =>
              rw [propsLoop_cons_visiterr _ _ _ _ _ hr hg hd hw hvs]
              exact ⟨rfl, List.mem_cons_of_mem _ hfoo⟩
            | ok cur1 =>
              rw [propsLoop_cons_visit _ _ _ _ _ hr hg hd hw hvs]
              obtain ⟨hp, hm⟩ := ih cur1 (n :: found) (List.mem_cons_of_mem _ hfoo)
              exact ⟨hp.trans (hv cur n cur1 hne hvs), hm⟩
      · rw [propsLoop_cons_guardfail _ _ _ _ _ hr hg]
        exact ih cur found hfoo

theorem mem_forInNames_of_enum {own : List Entry} {n : String} {e : Entry}
    (ip : Option Value) (hown : getOwnEntry own n = some e) (hen : entryEnum e = true) :
    n ∈ forInNames (.vObj own ip) := by
  have hin : n ∈ enumOwnNames own := by
    unfold enumOwnNames
    exact List.mem_map.mpr
      ⟨e, List.mem_filter.mpr ⟨getOwnEntry_mem hown, hen⟩, getOwnEntry_name hown⟩
  unfold forInNames
  cases ip with
  | some p =>
    rw [show forInAux (.vObj own (some p)) []
        = (enumOwnNames own).filter (fun x => decide (x ∉ ([] : List String)))
          ++ forInAux p ([] ++ own.map (fun e => e.1)) from rfl]
    exact List.mem_append.mpr (Or.inl (List.mem_filter.mpr ⟨hin, by simp⟩))
  | none =>
    rw [show forInAux (.vObj own none) []
        = (enumOwnNames own).filter (fun x => decide (x ∉ ([] : List String))) from rfl]
    exact List.mem_filter.mpr ⟨hin, by simp⟩

theorem forInLoop_install (skip : List String) (b : Value) (nm : String) (k : Nat)
    (w en : Bool) (hskip : spySkip skip nm = false) (hb : b.truthy = false) :
    ∀ (names : List String) (cur : Value) (found : List String),
      nm ∈ names → foundLookup found nm = false →
      objGetOwn cur nm = some (nm, .vFunc k, w, en, false) →
      (forInLoop (spyVisitor skip b) cur found names).err = true ∨
      (objGetOwn (forInLoop (spyVisitor skip b) cur found names).cur nm
          = some (nm, .vSpy k [] none, w, en, false) ∧
        nm ∈ (forInLoop (spyVisitor skip b) cur found names).found) := by
  intro names
  induction names with
  | nil =>
    intro cur found hmem
    exact absurd hmem (List.not_mem_nil nm)
  | cons n rest ih =>
    intro cur found hmem hf hown
    by_cases hnm : n = nm
    · subst hnm
      obtain ⟨own, ip, rfl⟩ : ∃ own ip, cur = .vObj own ip := by
        cases cur <;> simp [objGetOwn] at hown ⊢
      simp only [objGetOwn] at hown
      have hr : readProp (.vObj own ip) n = .ok (.vFunc k) := by
        rw [readProp_vObj_entry ip hown]
        simp [entryThrows, entryVal]
      have hstep : spyVisitor skip b (.vObj own ip) n
          = .ok (setOwnValue (.vObj own ip) n (.vSpy k [] none)) := by
        unfold spyVisitor spyIf spyOn
        rw [hr]
        simp [hskip, mkSpy, Value.typeofFunction, Value.isSpy, hb]
      rw [forInLoop_cons_visit _ _ _ _ _ hf hr hstep]
      right
      obtain ⟨hp, hm⟩ := forInLoop_preserve_found (spyVisitor skip b) n
        (fun c m c' hmne hstep2 => spyVisitor_preserve_ne c m c' hmne hstep2) rest
        (setOwnValue (.vObj own ip) n (.vSpy k [] none)) (n :: found)
        (List.mem_cons_self n found)
      refine ⟨?_, hm⟩
      rw [hp]
      have hget : objGetOwn (Value.vObj own ip) n = some (n, Value.vFunc k, w, en, false) := by
        simp [objGetOwn, hown]
      have hset := objGetOwn_setOwnValue_self (Value.vSpy k [] none) hget
      simpa using hset
    · have hmem2 : nm ∈ rest := by
        rcases List.mem_cons.mp hmem with he | hm
        · exact absurd he.symm hnm
        · exact hm
      cases hf2 : foundLookup found n with
      | true =>
        rw [forInLoop_cons_found _ _ _ _ _ hf2]
        exact ih cur found hmem2 hf hown
      | false =>
        cases hr : readProp cur n with
        | error e =>
          rw [forInLoop_cons_readerr _ _ _ _ _ hf2 hr]
          exact Or.inl rfl
        | ok u =>
          cases hvs : spyVisitor skip b cur n with
          | error e =>
            rw [forInLoop_cons_visiterr _ _ _ _ _ hf2 hr hvs]
            exact Or.inl rfl
          | ok cur1 =>
            rw [forInLoop_cons_visit _ _ _ _ _ hf2 hr hvs]
            have hown1 : objGetOwn cur1 nm = some (nm, .vFunc k, w, en, false) := by
              rw [spyVisitor_preserve_ne cur n cur1 hnm hvs]
              exact hown
            exact ih cur1 (n :: found) hmem2
              (foundLookup_cons_false hf (fun he => hnm he.symm)) hown1

theorem walkLevel_install (skip : List String) (b : Value) (nm : String) (k : Nat)
    (w en : Bool) (hskip : spySkip skip nm = false) (hb : b.truthy = false)
    (cur : Value) (found : List String)
    (hmem : nm ∈ forInNames cur) (hf : foundLookup found nm = false)
    (hown : objGetOwn cur nm = some (nm, .vFunc k, w, en, false)) :
    (walkLevel (spyVisitor skip b) cur found).err = true ∨
    (objGetOwn (walkLevel (spyVisitor skip b) cur found).cur nm
        = some (nm, .vSpy k [] none, w, en, false) ∧
      nm ∈ (walkLevel (spyVisitor skip b) cur found).found) := by
  unfold walkLevel
  rcases forInLoop_install skip b nm k w en hskip hb (forInNames cur) cur found hmem hf hown
    with herr1 | ⟨hspy, hmemf⟩
  · simp only [herr1, if_true]
    exact Or.inl trivial
  · cases herr : (forInLoop (spyVisitor skip b) cur found (forInNames cur)).err
    · simp only [herr, Bool.false_eq_true, if_false]
      cases hp2 : readProp (forInLoop (spyVisitor skip b) cur found (forInNames cur)).cur
          "prototype" with
      | error e => exact Or.inl rfl
      | ok protoV =>
        right
        obtain ⟨hp, hm⟩ := propsLoop_preserve_found (spyVisitor skip b) nm
          (fun c m c' hmne hstep2 => spyVisitor_preserve_ne c m c' hmne hstep2) _
          (forInLoop (spyVisitor skip b) cur found (forInNames cur)).cur
          (forInLoop (spyVisitor skip b) cur found (forInNames cur)).found hmemf
        exact ⟨hp.trans hspy, hm⟩
    · simp only [herr, if_true]
      exact Or.inl trivial

/-- C5: `spyAllExcept` honors the exception list and spies the rest: on a
successful walk, (1) any name in the computed exception set (and distinct
from the `prototype` slot) keeps its own entry on the target exactly
unchanged -- with a function-valued `foo` this means `foo` remains the
original unspied function; and (2) every own enumerable, accessible,
plain-function member of the target that is not skipped is walked and
ends up an installed spy wrapping it (here with no behavior spec given).
The JS function returns `obj`; in the model the walked-and-mutated root
is the `done` payload. -/
theorem spyAllExcept_spies_except_exceptions :
    (∀ (fuel : Nat) (obj excepts behavior fin : Value) (foo : String),
        foo ∈ getMethodsToSkip excepts → foo ≠ "prototype" →
        (spyAllExcept fuel obj excepts behavior).status = .done fin →
        objGetOwn fin foo = objGetOwn obj foo) ∧
    (∀ (fuel : Nat) (obj excepts behavior fin : Value) (n : String) (k : Nat) (w : Bool),
        (spyAllExcept fuel obj excepts behavior).status = .done fin →
        objGetOwn obj n = some (n, .vFunc k, w, true, false) →
        n ∉ objectProtoKeys →
        spySkip (getMethodsToSkip excepts) n = false →
        behavior.truthy = false →
        n ≠ "prototype" →
        objGetOwn fin n = some (n, .vSpy k [] none, w, true, false)) := by
  constructor
  · intro fuel obj excepts behavior fin foo hmem hnp h
    exact walk_preserve (spyVisitor (getMethodsToSkip excepts) behavior) foo
      (spyVisitor_preserve_skip (spySkip_of_mem hmem)) hnp fuel obj [] fin h
  · intro fuel obj excepts behavior fin n k w h hown hpk hskip hb hnp
    obtain ⟨own, ip, rfl⟩ : ∃ own ip, obj = .vObj own ip := by
      cases obj <;> simp [objGetOwn] at hown ⊢
    have ht : (Value.vObj own ip).truthy = true := rfl
    cases fuel with
    | zero =>
      unfold spyAllExcept at h
      simp only [forEachWritableProperties, ht, if_true] at h
      exact WStatus.noConfusion h
    | succ fuel =>
      unfold spyAllExcept at h
      simp only [forEachWritableProperties, ht, Bool.not_true, Bool.false_eq_true,
        if_false] at h
      have hmemN : n ∈ forInNames (.vObj own ip) := by
        have hget : getOwnEntry own n = some (n, Value.vFunc k, w, true, false) := by
          simpa [objGetOwn] using hown
        exact mem_forInNames_of_enum ip hget rfl
      have hf0 : foundLookup [] n = false := by
        simp [foundLookup, hpk]
      rcases walkLevel_install (getMethodsToSkip excepts) behavior n k w true hskip hb
          (.vObj own ip) [] hmemN hf0 hown with herr1 | ⟨hspy, _⟩
      · rw [herr1] at h
        simp only [if_true] at h
        exact WStatus.noConfusion h
      · cases herr : (walkLevel (spyVisitor (getMethodsToSkip excepts) behavior)
            (.vObj own ip) []).err
        · rw [herr] at h
          simp only [Bool.false_eq_true, if_false] at h
          cases hp2 : readProp (walkLevel (spyVisitor (getMethodsToSkip excepts) behavior)
              (.vObj own ip) []).cur "prototype" with
          | error e =>
            rw [hp2] at h
            simp only [] at h
            exact WStatus.noConfusion h
          | ok pv2 =>
            rw [hp2] at h
            simp only [] at h
            cases htr : pv2.truthy with
            | false =>
              rw [htr] at h
              simp only [Bool.false_eq_true, if_false] at h
              rw [← WStatus.done.inj h]
              exact hspy
            | true =>
              rw [htr] at h
              simp only [if_true] at h
              cases hsub : (forEachWritableProperties
                  (spyVisitor (getMethodsToSkip excepts) behavior) fuel pv2
                  (walkLevel (spyVisitor (getMethodsToSkip excepts) behavior)
                    (.vObj own ip) []).found).status with
              | done subfin =>
                rw [hsub] at h
                simp only [] at h
                rw [← WStatus.done.inj h, objGetOwn_writeBackProto hnp]
                exact hspy
              | errored =>
                rw [hsub] at h
                exact WStatus.noConfusion h
              | fuelOut =>
                rw [hsub] at h
                exact WStatus.noConfusion h
        · rw [herr] at h
          simp only [if_true] at h
          exact WStatus.noConfusion h

/-- Witness for C5 on a concrete object with function members `a` and
`foo`: after `spyAllExcept(obj, ['foo'])` the excepted `foo` is unchanged
and `a` carries a fresh spy. -/
theorem spyAllExcept_spies_except_exceptions_witness :
    objGetOwn exTwoFnsSpied "foo" = objGetOwn exTwoFns "foo" ∧
    objGetOwn exTwoFnsSpied "a" = some ("a", .vSpy 1 [] none, true, true, false) :=
  ⟨spyAllExcept_spies_except_exceptions.1 2 exTwoFns (.vArr [.vStr "foo"]) .vUndefined
      exTwoFnsSpied "foo" (by decide) (by decide) rfl,
    spyAllExcept_spies_except_exceptions.2 2 exTwoFns (.vArr [.vStr "foo"]) .vUndefined
      exTwoFnsSpied "a" 1 true rfl rfl (by decide) rfl rfl (by decide)⟩

end JasmineUtilsLite
